import Mathlib

/-!
# A 4×4×4 tic-tac-toe engine: bit boards, win lines, evaluator and alpha-beta search

Shallow embedding of `board.h`, `constants.h`, `game.h`, `game.cpp` and `engine.cpp`.

* `uint64_t` values are natural numbers below `2 ^ 64`; a `Board` carries the two
  bounds, so that "every board" ranges exactly over the pairs of 64-bit masks.
* `int` values (depth, scores, bounds, moves, coordinates) are integers.  `minimax`
  computes with exact integers; `minimax32` repeats it with the arithmetic on `depth`
  (`100000 + depth`, `-100000 - depth`, `depth - 1`) in 32-bit `int`, and
  `minimax32_eq_minimax` shows that the two agree for every depth from `-2147483583` to
  `2147383647`, in particular for the depths `0` to `64` of a search.
* The recursion of `minimax` is driven by a fuel counter (one unit per nested call) and
  the `while` loop by a second one (one unit per iteration); running out of either gives
  `none`.  `minimax` starts with 64 units of each, one per cell of the grid.
-/

namespace TicTacToe

/-! ## board.h -/

/-- The function `bit_at` of `board.h`: `1ULL << (x + 4 * y + 16 * z)`. -/
def bit_at (x y z : Int) : Nat :=
  (1 <<< (x + 4 * y + 16 * z).toNat) % 2 ^ 64

/-- The struct `Board` of `board.h`: two `uint64_t` masks. -/
structure Board where
  x_mask : Nat
  o_mask : Nat
  x_lt : x_mask < 2 ^ 64
  o_lt : o_mask < 2 ^ 64

/-- The default-initialised board (`x_mask = 0`, `o_mask = 0`). -/
def Board.empty : Board := ⟨0, 0, by decide, by decide⟩

/-- The board with the two masks exchanged. -/
def Board.swap (b : Board) : Board := ⟨b.o_mask, b.x_mask, b.o_lt, b.x_lt⟩

/-! ## Compiler builtins and 64-bit operators -/

/-- The builtin `__builtin_popcountll`: the number of set bits of a 64-bit word. -/
def popcountll (n : Nat) : Nat :=
  ((List.range 64).filter fun i => n.testBit i).length

/-- The builtin `__builtin_ctzll`: the index of the lowest set bit of a 64-bit word
(the builtin is undefined at 0, where this model answers 64). -/
def ctzll (n : Nat) : Nat :=
  ((List.range 64).find? fun i => n.testBit i).getD 64

/-- The operator `~` on a `uint64_t`. -/
def not64 (n : Nat) : Nat := 2 ^ 64 - 1 - n % 2 ^ 64

/-! ## constants.h -/

/-- The constant `N` of `constants.h`. -/
def N : Int := 4

/-- The values `0, 1, ..., n - 1` taken by the counter of `for (int i = 0; i < n; ++i)`. -/
def upto (n : Int) : List Int := (List.range n.toNat).map Int.ofNat

/-- The inner loops `m = 0; for (d = 0; d < N; ++d) m |= f(d);`. -/
def orOver (f : Int → Nat) : Nat := (upto N).foldl (fun m d => m ||| f d) 0

/-- The function `generate_win_masks` of `constants.h`, its seven blocks in order. -/
def generate_win_masks : List Nat :=
  ((upto N).flatMap fun y => (upto N).map fun z => orOver fun x => bit_at x y z) ++
  ((upto N).flatMap fun x => (upto N).map fun z => orOver fun y => bit_at x y z) ++
  ((upto N).flatMap fun x => (upto N).map fun y => orOver fun z => bit_at x y z) ++
  ((upto N).flatMap fun z =>
    [orOver fun d => bit_at d d z, orOver fun d => bit_at d (N - 1 - d) z]) ++
  ((upto N).flatMap fun y =>
    [orOver fun d => bit_at d y d, orOver fun d => bit_at d y (N - 1 - d)]) ++
  ((upto N).flatMap fun x =>
    [orOver fun d => bit_at x d d, orOver fun d => bit_at x d (N - 1 - d)]) ++
  [orOver fun d => bit_at d d d, orOver fun d => bit_at d d (N - 1 - d),
   orOver fun d => bit_at d (N - 1 - d) d, orOver fun d => bit_at (N - 1 - d) d d]

/-- The table `WIN_MASKS` of `constants.h`. -/
def WIN_MASKS : List Nat := generate_win_masks

/-! ## game.h -/

/-- The enum `Player` of `game.h`. -/
inductive Player where
  | NONE
  | X
  | O
  deriving DecidableEq, Repr

/-- The data members of the class `Game` of `game.h`. -/
structure Game where
  board_ : Board
  currentPlayer_ : Player

/-- The method `Game::getBoard`. -/
def Game.getBoard (g : Game) : Board := g.board_

/-- The method `Game::getCurrentPlayer`. -/
def Game.getCurrentPlayer (g : Game) : Player := g.currentPlayer_

/-- The struct `EngineConfig` of `engine.h`. -/
structure EngineConfig where
  maxDepth : Int

/-! ## engine.cpp -/

/-- The function `weight` of `engine.cpp`. -/
def weight (count : Int) : Int :=
  if count = 3 then 100
  else if count = 2 then 10
  else if count = 1 then 1
  else 0

/-- The body of the loop of `evaluateBoard` (lines 99-109): the score after one mask. -/
def evalStep (board : Board) (weighted_score : Int) (mask : Nat) : Int :=
  let x_count : Int := popcountll (board.x_mask &&& mask)
  let o_count : Int := popcountll (board.o_mask &&& mask)
  if x_count > 0 ∧ o_count = 0 then weighted_score + weight x_count
  else if o_count > 0 ∧ x_count = 0 then weighted_score - weight o_count
  else weighted_score

/-- The function `evaluateBoard` of `engine.cpp`. -/
def evaluateBoard (board : Board) : Int :=
  WIN_MASKS.foldl (evalStep board) 0

/-- The first loop of `minimax` (lines 28-35): the masks are visited in table order and
for each one `x_mask` is tested before `o_mask`; `none` when the loop falls through. -/
def winCheck : List Nat → Board → Int → Option (Int × Int)
  | [], _, _ => none
  | mask :: rest, board, depth =>
    if board.x_mask &&& mask = mask then some (100000 + depth, -1)
    else if board.o_mask &&& mask = mask then some (-100000 - depth, -1)
    else winCheck rest board depth

/-- The statement `newBoard.x_mask |= move_bit`. -/
def Board.orX (board : Board) (move_bit : Nat) (h : move_bit < 2 ^ 64) : Board :=
  ⟨board.x_mask ||| move_bit, board.o_mask, Nat.or_lt_two_pow board.x_lt h, board.o_lt⟩

/-- The statement `newBoard.o_mask |= move_bit`. -/
def Board.orO (board : Board) (move_bit : Nat) (h : move_bit < 2 ^ 64) : Board :=
  ⟨board.x_mask, board.o_mask ||| move_bit, board.x_lt, Nat.or_lt_two_pow board.o_lt h⟩

/-- The shift `1ULL << move`, with the bound of its type. -/
def moveBit (move : Nat) : { m : Nat // m < 2 ^ 64 } :=
  ⟨(1 <<< move) % 2 ^ 64, Nat.mod_lt _ (by decide)⟩

/-- The `while (empty != 0)` loop of `minimax` (lines 53-81).  `search b flag alpha beta`
stands for `minimax(b, depth - 1, flag, alpha, beta).first`; the first argument counts
the iterations that may still be made. -/
def minimaxLoop (search : Board → Bool → Int → Int → Option Int) (board : Board)
    (isMaximizing : Bool) : Nat → Nat → Int → Int → Int → Int → Option (Int × Int)
  | 0, empty, _, _, bestScore, bestMove =>
    if empty = 0 then some (bestScore, bestMove) else none
  | iters + 1, empty, alpha, beta, bestScore, bestMove =>
    if empty = 0 then some (bestScore, bestMove)
    else
      let move : Nat := ctzll empty
      let move_bit := moveBit move
      if isMaximizing then
        match search (board.orX move_bit.1 move_bit.2) false alpha beta with
        | none => none
        | some score =>
          let best : Int × Int :=
            if score > bestScore then (score, (move : Int)) else (bestScore, bestMove)
          let alpha := max alpha best.1
          if beta ≤ alpha then some best
          else minimaxLoop search board isMaximizing iters (empty &&& not64 move_bit.1)
            alpha beta best.1 best.2
      else
        match search (board.orO move_bit.1 move_bit.2) true alpha beta with
        | none => none
        | some score =>
          let best : Int × Int :=
            if score < bestScore then (score, (move : Int)) else (bestScore, bestMove)
          let beta := min beta best.1
          if beta ≤ alpha then some best
          else minimaxLoop search board isMaximizing iters (empty &&& not64 move_bit.1)
            alpha beta best.1 best.2

/-- The body of `minimax` (lines 26-84), with `self` standing for the function itself in
the two recursive calls. -/
def minimaxBody (self : Board → Int → Bool → Int → Int → Option (Int × Int))
    (board : Board) (depth : Int) (isMaximizing : Bool) (alpha beta : Int) :
    Option (Int × Int) :=
  match winCheck WIN_MASKS board depth with
  | some result => some result
  | none =>
    if popcountll (board.x_mask ||| board.o_mask) = 64 then some (0, -1)
    else if depth = 0 then some (evaluateBoard board, -1)
    else
      let bestMove : Int := -1
      let bestScore : Int := if isMaximizing then -1000000 else 1000000
      let occupied := board.x_mask ||| board.o_mask
      let empty := not64 occupied
      minimaxLoop (fun b flag a c => (self b (depth - 1) flag a c).map Prod.fst)
        board isMaximizing 64 empty alpha beta bestScore bestMove

/-- The function `minimax` with at most `fuel` nested recursive calls below the outermost
one; a call that would nest deeper gives `none`. -/
def minimaxFuel : Nat → Board → Int → Bool → Int → Int → Option (Int × Int)
  | 0 => minimaxBody fun _ _ _ _ _ => none
  | fuel + 1 => minimaxBody (minimaxFuel fuel)

/-- The function `minimax` of `engine.cpp`: a pair (score, move), move `-1` for none. -/
def minimax (board : Board) (depth : Int) (isMaximizing : Bool) (alpha beta : Int) :
    Option (Int × Int) :=
  minimaxFuel 64 board depth isMaximizing alpha beta

/-- The function `findBestMove` of `engine.cpp` (the line it prints is not modelled). -/
def findBestMove (game : Game) (config : EngineConfig) : Option Int :=
  let board := game.getBoard
  let isMaximizing : Bool := game.getCurrentPlayer = Player.X
  (minimax board config.maxDepth isMaximizing (-1000000) 1000000).map Prod.snd

/-! ## game.cpp -/

/-- The enum `GameState` of `game.h`. -/
inductive GameState where
  | ONGOING
  | DRAW
  | X_WINS
  | O_WINS
  deriving DecidableEq, Repr

/-- The method `Game::reset` of `game.cpp`: both masks cleared, X to move. -/
def Game.reset (_g : Game) : Game :=
  ⟨⟨0, 0, by decide, by decide⟩, Player.X⟩

/-- The method `Game::makeMove` of `game.cpp`: the returned flag and the state after the
call. -/
def Game.makeMove (g : Game) (x y z : Int) : Bool × Game :=
  if x < 0 ∨ x ≥ 4 ∨ y < 0 ∨ y ≥ 4 ∨ z < 0 ∨ z ≥ 4 then (false, g)
  else
    let move_bit : { m : Nat // m < 2 ^ 64 } := ⟨bit_at x y z, Nat.mod_lt _ (by decide)⟩
    if g.board_.x_mask &&& move_bit.1 ≠ 0 ∨ g.board_.o_mask &&& move_bit.1 ≠ 0 then (false, g)
    else if g.currentPlayer_ = Player.X then
      (true, ⟨g.board_.orX move_bit.1 move_bit.2, Player.O⟩)
    else
      (true, ⟨g.board_.orO move_bit.1 move_bit.2, Player.X⟩)

/-- The method `Game::checkGameState` of `game.cpp`: `return GameState();`, the
value-initialised enum, whose value 0 is `ONGOING`. -/
def Game.checkGameState (_g : Game) : GameState := GameState.ONGOING

/-- The state after `reset()` followed by the calls `makeMove(x, y, z)` for the triples of
a list, in order, whatever each call returns. -/
def Game.play (moves : List (Int × Int × Int)) : Game :=
  moves.foldl (fun g m => (g.makeMove m.1 m.2.1 m.2.2).2) (Game.reset ⟨Board.empty, Player.NONE⟩)

/-- The bit position `x + 4 * y + 16 * z` of the cell `(x, y, z)`, the shift of `bit_at`. -/
def bitIndex (x y z : Int) : Int := x + 4 * y + 16 * z

/-- A search result with its score negated and its move kept. -/
def negScore (r : Int × Int) : Int × Int := (-r.1, r.2)

/-! ## engine.cpp with 32-bit `int` arithmetic on the depth

The only arithmetic `minimax` performs on a value it does not bound itself is on `depth`:
`100000 + depth`, `-100000 - depth` and `depth - 1`.  The definitions below repeat the win
check and the body of `minimax` with these three results reduced to the 32-bit
two's-complement `int` of the target. -/

/-- The value of an `int` computation whose exact result is `v`, in 32-bit two's-complement
arithmetic: `v` reduced modulo `2 ^ 32` into `[-2 ^ 31, 2 ^ 31)`. -/
def wrapInt32 (v : Int) : Int := (v + 2147483648) % 4294967296 - 2147483648

/-- The first loop of `minimax` (lines 28-35) with the two scores computed in `int`. -/
def winCheck32 : List Nat → Board → Int → Option (Int × Int)
  | [], _, _ => none
  | mask :: rest, board, depth =>
    if board.x_mask &&& mask = mask then some (wrapInt32 (100000 + depth), -1)
    else if board.o_mask &&& mask = mask then some (wrapInt32 (-100000 - depth), -1)
    else winCheck32 rest board depth

/-- The body of `minimax` (lines 26-84) with the arithmetic on `depth` computed in `int`;
`self` stands for the function itself in the two recursive calls. -/
def minimaxBody32 (self : Board → Int → Bool → Int → Int → Option (Int × Int))
    (board : Board) (depth : Int) (isMaximizing : Bool) (alpha beta : Int) :
    Option (Int × Int) :=
  match winCheck32 WIN_MASKS board depth with
  | some result => some result
  | none =>
    if popcountll (board.x_mask ||| board.o_mask) = 64 then some (0, -1)
    else if depth = 0 then some (evaluateBoard board, -1)
    else
      let bestMove : Int := -1
      let bestScore : Int := if isMaximizing then -1000000 else 1000000
      let occupied := board.x_mask ||| board.o_mask
      let empty := not64 occupied
      minimaxLoop (fun b flag a c => (self b (wrapInt32 (depth - 1)) flag a c).map Prod.fst)
        board isMaximizing 64 empty alpha beta bestScore bestMove

/-- The function `minimax` in `int` arithmetic with at most `fuel` nested recursive calls
below the outermost one. -/
def minimaxFuel32 : Nat → Board → Int → Bool → Int → Int → Option (Int × Int)
  | 0 => minimaxBody32 fun _ _ _ _ _ => none
  | fuel + 1 => minimaxBody32 (minimaxFuel32 fuel)

/-- The function `minimax` of `engine.cpp` in `int` arithmetic; it agrees with `minimax`
whenever no computation on `depth` leaves the range of `int`. -/
def minimax32 (board : Board) (depth : Int) (isMaximizing : Bool) (alpha beta : Int) :
    Option (Int × Int) :=
  minimaxFuel32 64 board depth isMaximizing alpha beta

/-! ## Auxiliary notions used to state and prove the properties -/

/-- The set bits of a 64-bit word, lowest first. -/
def cells (e : Nat) : List Nat := (List.range 64).filter fun i => e.testBit i


/-- The `while` loop of `minimax` run over an explicit list of moves instead of the
word `empty`; `minimaxLoop` on `empty` is this function on `cells empty`. -/
def searchMoves (search : Board → Bool → Int → Int → Option Int) (board : Board)
    (isMaximizing : Bool) : List Nat → Int → Int → Int → Int → Option (Int × Int)
  | [], _, _, bestScore, bestMove => some (bestScore, bestMove)
  | move :: rest, alpha, beta, bestScore, bestMove =>
    if isMaximizing then
      match search (board.orX (moveBit move).1 (moveBit move).2) false alpha beta with
      | none => none
      | some score =>
        let best : Int × Int :=
          if score > bestScore then (score, (move : Int)) else (bestScore, bestMove)
        let alpha := max alpha best.1
        if beta ≤ alpha then some best
        else searchMoves search board isMaximizing rest alpha beta best.1 best.2
    else
      match search (board.orO (moveBit move).1 (moveBit move).2) true alpha beta with
      | none => none
      | some score =>
        let best : Int × Int :=
          if score < bestScore then (score, (move : Int)) else (bestScore, bestMove)
        let beta := min beta best.1
        if beta ≤ alpha then some best
        else searchMoves search board isMaximizing rest alpha beta best.1 best.2

/-- A complete win line inside a mask: the test `(m & mask) == mask` of `minimax`
succeeds for some entry of `WIN_MASKS`. -/
def hasLine (m : Nat) : Prop := ∃ mask ∈ WIN_MASKS, m &&& mask = mask

instance hasLine_decidable (m : Nat) : Decidable (hasLine m) :=
  inferInstanceAs (Decidable (∃ mask ∈ WIN_MASKS, m &&& mask = mask))

/-- The empty cells of a board, lowest bit index first. -/
def emptyCells (b : Board) : List Nat :=
  (List.range 64).filter fun c => !(b.x_mask ||| b.o_mask).testBit c

/-- The position after the player to move (X when `isMaximizing`) marks cell `c`. -/
def play (b : Board) (isMaximizing : Bool) (c : Nat) : Board :=
  if isMaximizing then b.orX (moveBit c).1 (moveBit c).2
  else b.orO (moveBit c).1 (moveBit c).2

/-- The greatest (for the maximizer) or least (for the minimizer) of a list of scores. -/
def bestOf (isMaximizing : Bool) : List Int → Int
  | [] => 0
  | v :: vs => vs.foldl (fun acc s => if isMaximizing then max acc s else min acc s) v

/-- One level of the unpruned full-width search: the terminal checks of `minimax` (win,
full board, depth 0), then every empty cell tried in turn with no alpha/beta window;
`self` gives the value of a child position one ply deeper. -/
def fullWidthBody (self : Board → Bool → Int) (depth : Nat) (board : Board)
    (isMaximizing : Bool) : Int :=
  match winCheck WIN_MASKS board depth with
  | some result => result.1
  | none =>
    if popcountll (board.x_mask ||| board.o_mask) = 64 then 0
    else if depth = 0 then evaluateBoard board
    else
      bestOf isMaximizing
        ((emptyCells board).map fun c => self (play board isMaximizing c) (!isMaximizing))

/-- Unpruned full-width depth-limited minimax score of a position. -/
def fullWidth : Nat → Board → Bool → Int
  | 0 => fullWidthBody (fun _ _ => 0) 0
  | d + 1 => fullWidthBody (fullWidth d) (d + 1)

/-- How the score `r` of a search with window `(alpha, beta)` relates to the exact
value `v`: exact inside the window, on the same side outside it. -/
def Within (alpha beta v r : Int) : Prop :=
  (v ≤ alpha → r ≤ alpha) ∧ (beta ≤ v → beta ≤ r) ∧ (alpha < v → v < beta → r = v)

/-- The running maximum of the values `t` of a list of moves. -/
def maxFrom (t : Nat → Int) (init : Int) (moves : List Nat) : Int :=
  moves.foldl (fun acc m => max acc (t m)) init

/-- The running minimum of the values `t` of a list of moves. -/
def minFrom (t : Nat → Int) (init : Int) (moves : List Nat) : Int :=
  moves.foldl (fun acc m => min acc (t m)) init

/-- A board on which both players hold a complete row: X the cells 16-19, O the cells
0-3, whose mask stands first in `WIN_MASKS`. -/
def bothLinesBoard : Board := ⟨0xF0000, 0xF, by decide, by decide⟩

/-- A full board without a complete win line (a drawn position). -/
def drawnBoard : Board := ⟨0x23e8d4367d7869dd, 0xdc172bc982879622, by decide, by decide⟩

/-- A full board on which X holds the row of cells 0-3. -/
def fullWonBoard : Board := ⟨0xF, 0xFFFFFFFFFFFFFFF0, by decide, by decide⟩

/-- The number of cells of the line `mask` that carry a mark of the player with mask `m`. -/
def cellsOnLine (m mask : Nat) : Nat :=
  ((List.range 64).filter fun c => mask.testBit c && m.testBit c).length

/-- The contribution of one win line to the evaluation, for a weight function `w`: `+w(k)`
for `k ≥ 1` cells of X and none of O, `-w(k)` for `k ≥ 1` cells of O and none of X,
0 for a line that is empty or holds marks of both. -/
def lineContribution (w : Nat → Int) (board : Board) (mask : Nat) : Int :=
  if 1 ≤ cellsOnLine board.x_mask mask ∧ cellsOnLine board.o_mask mask = 0 then
    w (cellsOnLine board.x_mask mask)
  else if 1 ≤ cellsOnLine board.o_mask mask ∧ cellsOnLine board.x_mask mask = 0 then
    -w (cellsOnLine board.o_mask mask)
  else 0

/-- The evaluator as the specification words it: the sum of the contributions of the
win lines. -/
def evaluatorSpec (w : Nat → Int) (board : Board) : Int :=
  (WIN_MASKS.map (lineContribution w board)).sum

/-- The cell `(x, y, z)` lies inside the 4×4×4 grid. -/
def inGrid (x y z : Int) : Prop := 0 ≤ x ∧ x < 4 ∧ 0 ≤ y ∧ y < 4 ∧ 0 ≤ z ∧ z < 4

instance inGrid_decidable (x y z : Int) : Decidable (inGrid x y z) :=
  inferInstanceAs (Decidable (0 ≤ x ∧ x < 4 ∧ 0 ≤ y ∧ y < 4 ∧ 0 ≤ z ∧ z < 4))

/-- The mask of the four cells `p`, `p + v`, `p + 2v`, `p + 3v`, for `p = (x, y, z)` and
`v = (dx, dy, dz)`. -/
def lineMask (x y z dx dy dz : Int) : Nat :=
  bit_at x y z ||| bit_at (x + dx) (y + dy) (z + dz) |||
    bit_at (x + 2 * dx) (y + 2 * dy) (z + 2 * dz) |||
    bit_at (x + 3 * dx) (y + 3 * dy) (z + 3 * dz)

/-- The number of non-zero components of a direction: 1 for a line parallel to an axis,
2 for a diagonal of a plane, 3 for a space diagonal. -/
def dirKind (dx dy dz : Int) : Nat :=
  (if dx = 0 then 0 else 1) + (if dy = 0 then 0 else 1) + (if dz = 0 then 0 else 1)

/-- The mask `m` is the mask of a line of 4 collinear cells of the grid,
`p, p + v, p + 2v, p + 3v` with `v` in `{-1, 0, 1}^3` and all four cells inside the grid,
whose direction has `k` non-zero components. -/
def IsGridLine (k m : Nat) : Prop :=
  ∃ x y z dx dy dz : Int,
    (dx = -1 ∨ dx = 0 ∨ dx = 1) ∧ (dy = -1 ∨ dy = 0 ∨ dy = 1) ∧ (dz = -1 ∨ dz = 0 ∨ dz = 1) ∧
    inGrid x y z ∧ inGrid (x + dx) (y + dy) (z + dz) ∧
    inGrid (x + 2 * dx) (y + 2 * dy) (z + 2 * dz) ∧
    inGrid (x + 3 * dx) (y + 3 * dy) (z + 3 * dz) ∧
    dirKind dx dy dz = k ∧ m = lineMask x y z dx dy dz

/-- All pairs (kind, mask) of the lines of 4 collinear cells of the grid, by enumeration
of the starting cells and the directions. -/
def gridLines : List (Nat × Nat) :=
  [0, 1, 2, 3].flatMap fun (x : Int) => [0, 1, 2, 3].flatMap fun (y : Int) =>
  [0, 1, 2, 3].flatMap fun (z : Int) => [-1, 0, 1].flatMap fun (dx : Int) =>
  [-1, 0, 1].flatMap fun (dy : Int) => [-1, 0, 1].flatMap fun (dz : Int) =>
    if inGrid (x + dx) (y + dy) (z + dz) ∧ inGrid (x + 2 * dx) (y + 2 * dy) (z + 2 * dz) ∧
        inGrid (x + 3 * dx) (y + 3 * dy) (z + 3 * dz) then
      [(dirKind dx dy dz, lineMask x y z dx dy dz)]
    else []

/-! ## The table of win lines -/

theorem WIN_MASKS_eq : WIN_MASKS =
  [0xf, 0xf0000, 0xf00000000, 0xf000000000000,
   0xf0, 0xf00000, 0xf000000000, 0xf0000000000000,
   0xf00, 0xf000000, 0xf0000000000, 0xf00000000000000,
   0xf000, 0xf0000000, 0xf00000000000, 0xf000000000000000,
   0x1111, 0x11110000, 0x111100000000, 0x1111000000000000,
   0x2222, 0x22220000, 0x222200000000, 0x2222000000000000,
   0x4444, 0x44440000, 0x444400000000, 0x4444000000000000,
   0x8888, 0x88880000, 0x888800000000, 0x8888000000000000,
   0x1000100010001, 0x10001000100010, 0x100010001000100, 0x1000100010001000,
   0x2000200020002, 0x20002000200020, 0x200020002000200, 0x2000200020002000,
   0x4000400040004, 0x40004000400040, 0x400040004000400, 0x4000400040004000,
   0x8000800080008, 0x80008000800080, 0x800080008000800, 0x8000800080008000,
   0x8421, 0x1248, 0x84210000, 0x12480000,
   0x842100000000, 0x124800000000, 0x8421000000000000, 0x1248000000000000,
   0x8000400020001, 0x1000200040008, 0x80004000200010, 0x10002000400080,
   0x800040002000100, 0x100020004000800, 0x8000400020001000, 0x1000200040008000,
   0x1000010000100001, 0x1001001001000, 0x2000020000200002, 0x2002002002000,
   0x4000040000400004, 0x4004004004000, 0x8000080000800008, 0x8008008008000,
   0x8000040000200001, 0x1002004008000, 0x8004002001000, 0x1000020000400008] := by
  decide

theorem WIN_MASKS_length : WIN_MASKS.length = 76 := by
  rw [WIN_MASKS_eq]; rfl

/-! ## Bit-level facts -/

theorem popcountll_eq (n : Nat) : popcountll n = (cells n).length := rfl

theorem mem_cells {e i : Nat} : i ∈ cells e ↔ i < 64 ∧ e.testBit i = true := by
  simp [cells]

theorem testBit_lt_64 {e i : Nat} (he : e < 2 ^ 64) (h : e.testBit i = true) : i < 64 := by
  by_contra hc
  have : e < 2 ^ i := lt_of_lt_of_le he (Nat.pow_le_pow_right (by decide) (by omega))
  simp [Nat.testBit_lt_two_pow this] at h

theorem cells_length_le (e : Nat) : (cells e).length ≤ 64 := by
  have := List.length_filter_le (fun i => e.testBit i) (List.range 64)
  simpa [cells] using this

theorem cells_eq_nil {e : Nat} (he : e < 2 ^ 64) (h : cells e = []) : e = 0 := by
  apply Nat.eq_of_testBit_eq
  intro i
  rw [Nat.zero_testBit]
  by_contra hc
  have hb : e.testBit i = true := by simpa using hc
  have : i ∈ cells e := mem_cells.2 ⟨testBit_lt_64 he hb, hb⟩
  rw [h] at this
  exact absurd this (List.not_mem_nil _)

theorem testBit_not64 (n i : Nat) (hn : n < 2 ^ 64) :
    (not64 n).testBit i = (decide (i < 64) && !n.testBit i) := by
  have h : not64 n = 2 ^ 64 - (n + 1) := by
    unfold not64
    rw [Nat.mod_eq_of_lt hn]
    omega
  rw [h, Nat.testBit_two_pow_sub_succ hn]

theorem testBit_moveBit (m i : Nat) :
    (moveBit m).1.testBit i = (decide (i < 64) && decide (m = i)) := by
  show ((1 <<< m) % 2 ^ 64).testBit i = _
  rw [Nat.testBit_mod_two_pow, Nat.one_shiftLeft, Nat.testBit_two_pow]


theorem cells_zero : cells 0 = [] := by
  simp [cells]

/-- Filtering a duplicate-free list: the first hit, then the other hits. -/
theorem filter_eq_find_cons {p : Nat → Bool} : ∀ {l : List Nat} {m : Nat}, l.Nodup →
    l.find? p = some m → l.filter p = m :: l.filter (fun i => p i && decide (i ≠ m))
  | [], _, _, h => by simp at h
  | a :: t, m, hnd, h => by
    rw [List.nodup_cons] at hnd
    by_cases hpa : p a = true
    · rw [List.find?_cons_of_pos _ hpa] at h
      have ham : a = m := Option.some.inj h
      subst ham
      rw [List.filter_cons_of_pos hpa]
      congr 1
      rw [List.filter_cons_of_neg (by simp)]
      apply List.filter_congr
      intro x hx
      have : x ≠ a := fun hxa => hnd.1 (hxa ▸ hx)
      simp [this]
    · rw [List.find?_cons_of_neg _ hpa] at h
      rw [List.filter_cons_of_neg hpa, List.filter_cons_of_neg (by simp [hpa])]
      exact filter_eq_find_cons hnd.2 h

theorem ctzll_spec {e : Nat} (he : e < 2 ^ 64) (h0 : e ≠ 0) :
    (List.range 64).find? (fun i => e.testBit i) = some (ctzll e) := by
  unfold ctzll
  cases hf : (List.range 64).find? (fun i => e.testBit i) with
  | some m => rfl
  | none =>
    exfalso
    apply h0
    apply cells_eq_nil he
    rw [List.find?_eq_none] at hf
    unfold cells
    rw [List.filter_eq_nil_iff]
    exact hf

theorem cells_cons {e : Nat} (he : e < 2 ^ 64) (h0 : e ≠ 0) :
    cells e = ctzll e :: cells (e &&& not64 (moveBit (ctzll e)).1) := by
  unfold cells
  rw [filter_eq_find_cons (List.nodup_range 64) (ctzll_spec he h0)]
  congr 1
  apply List.filter_congr
  intro i hi
  have hi64 : i < 64 := List.mem_range.1 hi
  rw [Nat.testBit_and, testBit_not64 _ _ (moveBit _).2, testBit_moveBit]
  have h64 : decide (i < 64) = true := decide_eq_true hi64
  rw [h64]
  by_cases hm : i = ctzll e
  · have h1 : decide (ctzll e = i) = true := decide_eq_true hm.symm
    have h2 : decide (i ≠ ctzll e) = false := decide_eq_false (not_not.2 hm)
    rw [h1, h2]; simp
  · have h1 : decide (ctzll e = i) = false := decide_eq_false (fun h => hm h.symm)
    have h2 : decide (i ≠ ctzll e) = true := decide_eq_true hm
    rw [h1, h2]; simp

theorem ctzll_mem {e : Nat} (he : e < 2 ^ 64) (h0 : e ≠ 0) : ctzll e ∈ cells e := by
  rw [cells_cons he h0]; exact List.mem_cons_self _ _


/-! ## The loop of `minimax` over the list of empty cells -/
theorem and_not64_lt {e : Nat} (he : e < 2 ^ 64) (m : Nat) : e &&& m < 2 ^ 64 :=
  lt_of_le_of_lt Nat.and_le_left he

theorem minimaxLoop_eq_searchMoves (search : Board → Bool → Int → Int → Option Int)
    (board : Board) (isMaximizing : Bool) :
    ∀ (iters e : Nat) (alpha beta bestScore bestMove : Int), e < 2 ^ 64 →
      (cells e).length ≤ iters →
      minimaxLoop search board isMaximizing iters e alpha beta bestScore bestMove =
        searchMoves search board isMaximizing (cells e) alpha beta bestScore bestMove
  | 0, e, alpha, beta, bestScore, bestMove, he, hlen => by
    have h0 : e = 0 := cells_eq_nil he (List.length_eq_zero.1 (Nat.le_zero.1 hlen))
    subst h0
    simp [minimaxLoop, cells_zero, searchMoves]
  | iters + 1, e, alpha, beta, bestScore, bestMove, he, hlen => by
    by_cases h0 : e = 0
    · subst h0
      simp [minimaxLoop, cells_zero, searchMoves]
    · have hc := cells_cons he h0
      have hlen2 : (cells (e &&& not64 (moveBit (ctzll e)).1)).length ≤ iters := by
        rw [hc] at hlen
        simpa using hlen
      have ih := fun a b s m => minimaxLoop_eq_searchMoves search board isMaximizing iters
        (e &&& not64 (moveBit (ctzll e)).1) a b s m (and_not64_lt he _) hlen2
      rw [hc]
      unfold minimaxLoop searchMoves
      simp only [h0, if_false]
      cases isMaximizing
      · simp only [Bool.false_eq_true, if_false]
        cases search (board.orO (moveBit (ctzll e)).1 (moveBit (ctzll e)).2) true alpha beta with
        | none => rfl
        | some score => simp only [ih]
      · simp only [if_true]
        cases search (board.orX (moveBit (ctzll e)).1 (moveBit (ctzll e)).2) false alpha beta with
        | none => rfl
        | some score => simp only [ih]

theorem maxFrom_nil (t : Nat → Int) (x : Int) : maxFrom t x [] = x := rfl

theorem maxFrom_cons (t : Nat → Int) (x : Int) (m : Nat) (l : List Nat) :
    maxFrom t x (m :: l) = maxFrom t (max x (t m)) l := rfl

theorem maxFrom_max (t : Nat → Int) : ∀ (l : List Nat) (x y : Int),
    maxFrom t (max x y) l = max x (maxFrom t y l)
  | [], x, y => rfl
  | m :: l, x, y => by
    rw [maxFrom_cons, maxFrom_cons, max_assoc, maxFrom_max t l]

theorem le_maxFrom (t : Nat → Int) (l : List Nat) (x : Int) : x ≤ maxFrom t x l := by
  have := maxFrom_max t l x x
  rw [max_self] at this
  omega

theorem searchMoves_max (search : Board → Bool → Int → Int → Option Int) (board : Board)
    (t : Nat → Int) (lo hi beta : Int) :
    ∀ (rest : List Nat),
      (∀ m ∈ rest, ∀ a, -1000000 ≤ a → a < beta →
        ∃ s, search (board.orX (moveBit m).1 (moveBit m).2) false a beta = some s ∧
          Within a beta (t m) s ∧ lo ≤ s ∧ s ≤ hi) →
      ∀ (a bs bm : Int), -1000000 ≤ a → bs ≤ a → a < beta →
        ∃ r mv, searchMoves search board true rest a beta bs bm = some (r, mv) ∧
          bs ≤ r ∧ (r = bs ∨ (lo ≤ r ∧ r ≤ hi)) ∧ (rest ≠ [] → bs < lo → lo ≤ r) ∧
          Within a beta (maxFrom t bs rest) r
  | [], _, a, bs, bm, _, hbs, hab => by
    refine ⟨bs, bm, rfl, le_refl _, Or.inl rfl, fun h => absurd rfl h, ?_⟩
    unfold Within; rw [maxFrom_nil]; omega
  | m :: tl, hc, a, bs, bm, ha, hbs, hab => by
    obtain ⟨s, hs, hw, hlo, hhi⟩ := hc m (List.mem_cons_self _ _) a ha hab
    have hc2 : ∀ m ∈ tl, ∀ a, -1000000 ≤ a → a < beta →
        ∃ s, search (board.orX (moveBit m).1 (moveBit m).2) false a beta = some s ∧
          Within a beta (t m) s ∧ lo ≤ s ∧ s ≤ hi :=
      fun m hm => hc m (List.mem_cons_of_mem _ hm)
    have hV : maxFrom t bs (m :: tl) = max (t m) (maxFrom t bs tl) := by
      rw [maxFrom_cons, max_comm, maxFrom_max]
    have hA := le_maxFrom t tl bs
    unfold Within at hw
    unfold searchMoves
    simp only [if_true, hs]
    by_cases hgt : s > bs
    · simp only [hgt, if_true]
      by_cases hcut : beta ≤ max a s
      · simp only [hcut, if_true]
        refine ⟨s, m, rfl, by omega, Or.inr ⟨hlo, hhi⟩, fun _ _ => hlo, ?_⟩
        unfold Within; rw [hV]; omega
      · simp only [hcut, if_false]
        obtain ⟨r, mv, hr, h1, h2, _, h4⟩ :=
          searchMoves_max search board t lo hi beta tl hc2 (max a s) s m
            (by omega) (by omega) (by omega)
        have hV2 : maxFrom t s tl = max s (maxFrom t bs tl) := by
          have := maxFrom_max t tl s bs
          rw [max_eq_left (le_of_lt hgt)] at this
          exact this
        unfold Within at h4
        rw [hV2] at h4
        refine ⟨r, mv, hr, by omega, Or.inr (by omega), fun _ _ => by omega, ?_⟩
        unfold Within; rw [hV]; omega
    · simp only [hgt, if_false]
      have hcut : ¬ beta ≤ max a bs := by omega
      simp only [hcut, if_false]
      obtain ⟨r, mv, hr, h1, h2, _, h4⟩ :=
        searchMoves_max search board t lo hi beta tl hc2 (max a bs) bs bm
          (by omega) (by omega) (by omega)
      unfold Within at h4
      refine ⟨r, mv, hr, h1, h2, fun _ _ => by omega, ?_⟩
      unfold Within; rw [hV]; omega

theorem minFrom_nil (t : Nat → Int) (x : Int) : minFrom t x [] = x := rfl

theorem minFrom_cons (t : Nat → Int) (x : Int) (m : Nat) (l : List Nat) :
    minFrom t x (m :: l) = minFrom t (min x (t m)) l := rfl

theorem minFrom_min (t : Nat → Int) : ∀ (l : List Nat) (x y : Int),
    minFrom t (min x y) l = min x (minFrom t y l)
  | [], x, y => rfl
  | m :: l, x, y => by
    rw [minFrom_cons, minFrom_cons, min_assoc, minFrom_min t l]

theorem minFrom_le (t : Nat → Int) (l : List Nat) (x : Int) : minFrom t x l ≤ x := by
  have := minFrom_min t l x x
  rw [min_self] at this
  omega

theorem searchMoves_min (search : Board → Bool → Int → Int → Option Int) (board : Board)
    (t : Nat → Int) (lo hi alpha : Int) :
    ∀ (rest : List Nat),
      (∀ m ∈ rest, ∀ b, b ≤ 1000000 → alpha < b →
        ∃ s, search (board.orO (moveBit m).1 (moveBit m).2) true alpha b = some s ∧
          Within alpha b (t m) s ∧ lo ≤ s ∧ s ≤ hi) →
      ∀ (b bs bm : Int), b ≤ 1000000 → b ≤ bs → alpha < b →
        ∃ r mv, searchMoves search board false rest alpha b bs bm = some (r, mv) ∧
          r ≤ bs ∧ (r = bs ∨ (lo ≤ r ∧ r ≤ hi)) ∧ (rest ≠ [] → hi < bs → r ≤ hi) ∧
          Within alpha b (minFrom t bs rest) r
  | [], _, b, bs, bm, _, hbs, hab => by
    refine ⟨bs, bm, rfl, le_refl _, Or.inl rfl, fun h => absurd rfl h, ?_⟩
    unfold Within; rw [minFrom_nil]; omega
  | m :: tl, hc, b, bs, bm, hb, hbs, hab => by
    obtain ⟨s, hs, hw, hlo, hhi⟩ := hc m (List.mem_cons_self _ _) b hb hab
    have hc2 : ∀ m ∈ tl, ∀ b, b ≤ 1000000 → alpha < b →
        ∃ s, search (board.orO (moveBit m).1 (moveBit m).2) true alpha b = some s ∧
          Within alpha b (t m) s ∧ lo ≤ s ∧ s ≤ hi :=
      fun m hm => hc m (List.mem_cons_of_mem _ hm)
    have hV : minFrom t bs (m :: tl) = min (t m) (minFrom t bs tl) := by
      rw [minFrom_cons, min_comm, minFrom_min]
    have hA := minFrom_le t tl bs
    unfold Within at hw
    unfold searchMoves
    simp only [Bool.false_eq_true, if_false, hs]
    by_cases hgt : s < bs
    · simp only [hgt, if_true]
      by_cases hcut : min b s ≤ alpha
      · simp only [hcut, if_true]
        refine ⟨s, m, rfl, by omega, Or.inr ⟨hlo, hhi⟩, fun _ _ => hhi, ?_⟩
        unfold Within; rw [hV]; omega
      · simp only [hcut, if_false]
        obtain ⟨r, mv, hr, h1, h2, _, h4⟩ :=
          searchMoves_min search board t lo hi alpha tl hc2 (min b s) s m
            (by omega) (by omega) (by omega)
        have hV2 : minFrom t s tl = min s (minFrom t bs tl) := by
          have := minFrom_min t tl s bs
          rw [min_eq_left (le_of_lt hgt)] at this
          exact this
        unfold Within at h4
        rw [hV2] at h4
        refine ⟨r, mv, hr, by omega, Or.inr (by omega), fun _ _ => by omega, ?_⟩
        unfold Within; rw [hV]; omega
    · simp only [hgt, if_false]
      have hcut : ¬ min b bs ≤ alpha := by omega
      simp only [hcut, if_false]
      obtain ⟨r, mv, hr, h1, h2, _, h4⟩ :=
        searchMoves_min search board t lo hi alpha tl hc2 (min b bs) bs bm
          (by omega) (by omega) (by omega)
      unfold Within at h4
      refine ⟨r, mv, hr, h1, h2, fun _ _ => by omega, ?_⟩
      unfold Within; rw [hV]; omega

/-! ## Unfolding `minimax` -/

theorem emptyCells_eq (b : Board) : emptyCells b = cells (not64 (b.x_mask ||| b.o_mask)) := by
  unfold emptyCells cells
  apply List.filter_congr
  intro i hi
  rw [testBit_not64 _ _ (Nat.or_lt_two_pow b.x_lt b.o_lt)]
  simp [List.mem_range.1 hi]

theorem mem_emptyCells {b : Board} {c : Nat} :
    c ∈ emptyCells b ↔ c < 64 ∧ (b.x_mask ||| b.o_mask).testBit c = false := by
  simp [emptyCells]

theorem not64_lt (n : Nat) : not64 n < 2 ^ 64 := by
  unfold not64
  have : 0 < 2 ^ 64 := by decide
  omega

theorem minimaxBody_win (self : Board → Int → Bool → Int → Int → Option (Int × Int))
    (b : Board) (depth : Int) (flag : Bool) (alpha beta : Int)
    (r : Int × Int) (hw : winCheck WIN_MASKS b depth = some r) :
    minimaxBody self b depth flag alpha beta = some r := by
  unfold minimaxBody
  simp only [hw]

theorem minimaxBody_full (self : Board → Int → Bool → Int → Int → Option (Int × Int))
    (b : Board) (depth : Int) (flag : Bool) (alpha beta : Int)
    (hw : winCheck WIN_MASKS b depth = none)
    (hf : popcountll (b.x_mask ||| b.o_mask) = 64) :
    minimaxBody self b depth flag alpha beta = some (0, -1) := by
  unfold minimaxBody
  simp only [hw, hf, if_true]

theorem minimaxBody_cutoff (self : Board → Int → Bool → Int → Int → Option (Int × Int))
    (b : Board) (flag : Bool) (alpha beta : Int)
    (hw : winCheck WIN_MASKS b 0 = none)
    (hf : popcountll (b.x_mask ||| b.o_mask) ≠ 64) :
    minimaxBody self b 0 flag alpha beta = some (evaluateBoard b, -1) := by
  unfold minimaxBody
  simp only [hw, hf, if_true, if_false]

theorem minimaxBody_search (self : Board → Int → Bool → Int → Int → Option (Int × Int))
    (b : Board) (depth : Int) (flag : Bool) (alpha beta : Int)
    (hw : winCheck WIN_MASKS b depth = none)
    (hf : popcountll (b.x_mask ||| b.o_mask) ≠ 64) (hd : depth ≠ 0) :
    minimaxBody self b depth flag alpha beta =
      searchMoves (fun b2 f a c => (self b2 (depth - 1) f a c).map Prod.fst)
        b flag (emptyCells b) alpha beta (if flag then -1000000 else 1000000) (-1) := by
  unfold minimaxBody
  simp only [hw, hf, hd, if_false]
  rw [minimaxLoop_eq_searchMoves _ _ _ _ _ _ _ _ _ (not64_lt _) (cells_length_le _),
    emptyCells_eq]

theorem minimaxFuel_eq_body (fuel : Nat) :
    minimaxFuel fuel = minimaxBody (match fuel with
      | 0 => fun _ _ _ _ _ => none
      | k + 1 => minimaxFuel k) := by
  cases fuel <;> rfl

theorem minimaxFuel_succ (fuel : Nat) : minimaxFuel (fuel + 1) = minimaxBody (minimaxFuel fuel) :=
  rfl

/-! ## Terminal checks and score bounds -/

theorem winCheck_cases (l : List Nat) (b : Board) (d : Int) :
    winCheck l b d = none ∨ winCheck l b d = some (100000 + d, -1) ∨
      winCheck l b d = some (-100000 - d, -1) := by
  induction l with
  | nil => exact Or.inl rfl
  | cons mask rest ih =>
    unfold winCheck
    by_cases hx : b.x_mask &&& mask = mask
    · simp [hx]
    · by_cases ho : b.o_mask &&& mask = mask
      · simp [hx, ho]
      · simp only [hx, ho, if_false]; exact ih

theorem winCheck_eq_none {l : List Nat} {b : Board} {d : Int} :
    winCheck l b d = none ↔
      ∀ mask ∈ l, b.x_mask &&& mask ≠ mask ∧ b.o_mask &&& mask ≠ mask := by
  induction l with
  | nil => simp [winCheck]
  | cons mask rest ih =>
    unfold winCheck
    by_cases hx : b.x_mask &&& mask = mask
    · simp [hx]
    · by_cases ho : b.o_mask &&& mask = mask
      · simp [hx, ho]
      · simp [hx, ho, ih]

theorem winCheck_none_iff (b : Board) (d : Int) :
    winCheck WIN_MASKS b d = none ↔ ¬ hasLine b.x_mask ∧ ¬ hasLine b.o_mask := by
  rw [winCheck_eq_none]
  unfold hasLine
  constructor
  · intro h
    exact ⟨fun ⟨m, hm, he⟩ => (h m hm).1 he, fun ⟨m, hm, he⟩ => (h m hm).2 he⟩
  · intro h m hm
    exact ⟨fun he => h.1 ⟨m, hm, he⟩, fun he => h.2 ⟨m, hm, he⟩⟩

theorem weight_bound (c : Int) : 0 ≤ weight c ∧ weight c ≤ 100 := by
  unfold weight
  split_ifs <;> omega

theorem evalStep_bound (b : Board) (acc : Int) (mask : Nat) :
    acc - 100 ≤ evalStep b acc mask ∧ evalStep b acc mask ≤ acc + 100 := by
  have hx := weight_bound (popcountll (b.x_mask &&& mask))
  have ho := weight_bound (popcountll (b.o_mask &&& mask))
  unfold evalStep
  simp only
  split_ifs <;> omega

theorem evalFold_bound (b : Board) : ∀ (l : List Nat) (acc : Int),
    acc - 100 * l.length ≤ l.foldl (evalStep b) acc ∧
      l.foldl (evalStep b) acc ≤ acc + 100 * l.length
  | [], acc => by simp
  | mask :: rest, acc => by
    rw [List.foldl_cons]
    have h1 := evalStep_bound b acc mask
    have ih := evalFold_bound b rest (evalStep b acc mask)
    simp only [List.length_cons, Nat.cast_add, Nat.cast_one]
    omega

theorem evaluateBoard_bound (b : Board) :
    -7600 ≤ evaluateBoard b ∧ evaluateBoard b ≤ 7600 := by
  have h := evalFold_bound b WIN_MASKS 0
  rw [WIN_MASKS_length] at h
  unfold evaluateBoard
  omega

/-! ## The unpruned search -/

theorem foldl_best_bound (flag : Bool) (lo hi : Int) : ∀ (vs : List Int) (acc : Int),
    lo ≤ acc → acc ≤ hi → (∀ v ∈ vs, lo ≤ v ∧ v ≤ hi) →
    lo ≤ vs.foldl (fun acc s => if flag then max acc s else min acc s) acc ∧
      vs.foldl (fun acc s => if flag then max acc s else min acc s) acc ≤ hi
  | [], acc, h1, h2, _ => ⟨h1, h2⟩
  | v :: vs, acc, h1, h2, h => by
    rw [List.foldl_cons]
    have hv := h v (List.mem_cons_self _ _)
    apply foldl_best_bound flag lo hi vs _ _ _ (fun w hw => h w (List.mem_cons_of_mem _ hw))
    · cases flag <;> simp <;> omega
    · cases flag <;> simp <;> omega

theorem bestOf_bound (flag : Bool) (lo hi : Int) (vs : List Int) (h0 : lo ≤ 0) (h1 : 0 ≤ hi)
    (h : ∀ v ∈ vs, lo ≤ v ∧ v ≤ hi) : lo ≤ bestOf flag vs ∧ bestOf flag vs ≤ hi := by
  cases vs with
  | nil => exact ⟨h0, h1⟩
  | cons v vs =>
    have hv := h v (List.mem_cons_self _ _)
    exact foldl_best_bound flag lo hi vs v hv.1 hv.2
      (fun w hw => h w (List.mem_cons_of_mem _ hw))

theorem bestOf_true_map (g : Nat → Int) (c : Nat) (cs : List Nat) :
    bestOf true ((c :: cs).map g) = maxFrom g (g c) cs := by
  simp [bestOf, maxFrom, List.foldl_map]

theorem bestOf_false_map (g : Nat → Int) (c : Nat) (cs : List Nat) :
    bestOf false ((c :: cs).map g) = minFrom g (g c) cs := by
  simp [bestOf, minFrom, List.foldl_map]

theorem fullWidth_eq_body (d : Nat) :
    fullWidth d = fullWidthBody (match d with
      | 0 => fun _ _ => 0
      | k + 1 => fullWidth k) d := by
  cases d <;> rfl

theorem fullWidth_bound : ∀ (d : Nat) (b : Board) (flag : Bool),
    -(100000 + (d : Int)) ≤ fullWidth d b flag ∧ fullWidth d b flag ≤ 100000 + (d : Int)
  | d, b, flag => by
    rw [fullWidth_eq_body]
    unfold fullWidthBody
    rcases winCheck_cases WIN_MASKS b (d : Int) with hw | hw | hw
    · simp only [hw]
      split_ifs with hf hd
      · omega
      · have := evaluateBoard_bound b; omega
      · cases d with
        | zero => exact absurd rfl hd
        | succ k =>
          apply bestOf_bound _ _ _ _ (by omega) (by omega)
          intro v hv
          rw [List.mem_map] at hv
          obtain ⟨c, _, rfl⟩ := hv
          have := fullWidth_bound k (play b flag c) (!flag)
          simp only [Nat.cast_add, Nat.cast_one]
          omega
    · simp only [hw]; omega
    · simp only [hw]; omega

theorem popcountll_eq_64_iff (n : Nat) :
    popcountll n = 64 ↔ ∀ i, i < 64 → n.testBit i = true := by
  unfold popcountll
  constructor
  · intro h i hi
    have hl : ((List.range 64).filter fun i => n.testBit i).length = (List.range 64).length := by
      rw [h, List.length_range]
    have hs := List.Sublist.eq_of_length (List.filter_sublist (List.range 64)) hl
    have := (List.filter_eq_self.1 hs) i (List.mem_range.2 hi)
    exact this
  · intro h
    have : (List.range 64).filter (fun i => n.testBit i) = List.range 64 :=
      List.filter_eq_self.2 (fun i hi => h i (List.mem_range.1 hi))
    rw [this, List.length_range]

theorem emptyCells_ne_nil {b : Board} (hf : popcountll (b.x_mask ||| b.o_mask) ≠ 64) :
    emptyCells b ≠ [] := by
  intro h
  apply hf
  rw [popcountll_eq_64_iff]
  intro i hi
  by_contra hc
  have : i ∈ emptyCells b := mem_emptyCells.2 ⟨hi, by simpa using hc⟩
  rw [h] at this
  exact absurd this (List.not_mem_nil _)

/-! ## Pruned and unpruned search agree -/

theorem Within_self (alpha beta v : Int) : Within alpha beta v v :=
  ⟨id, id, fun _ _ => rfl⟩

theorem fullWidthBody_win (self : Board → Bool → Int) (d : Nat) (b : Board) (flag : Bool)
    (r : Int × Int) (hw : winCheck WIN_MASKS b (d : Int) = some r) :
    fullWidthBody self d b flag = r.1 := by
  unfold fullWidthBody
  simp only [hw]

theorem fullWidthBody_full (self : Board → Bool → Int) (d : Nat) (b : Board) (flag : Bool)
    (hw : winCheck WIN_MASKS b (d : Int) = none)
    (hf : popcountll (b.x_mask ||| b.o_mask) = 64) :
    fullWidthBody self d b flag = 0 := by
  unfold fullWidthBody
  simp only [hw, hf, if_true]

theorem fullWidthBody_cutoff (self : Board → Bool → Int) (b : Board) (flag : Bool)
    (hw : winCheck WIN_MASKS b ((0 : Nat) : Int) = none)
    (hf : popcountll (b.x_mask ||| b.o_mask) ≠ 64) :
    fullWidthBody self 0 b flag = evaluateBoard b := by
  unfold fullWidthBody
  simp only [hw, hf, if_true, if_false]

theorem fullWidthBody_search (self : Board → Bool → Int) (k : Nat) (b : Board) (flag : Bool)
    (hw : winCheck WIN_MASKS b ((k + 1 : Nat) : Int) = none)
    (hf : popcountll (b.x_mask ||| b.o_mask) ≠ 64) :
    fullWidthBody self (k + 1) b flag =
      bestOf flag ((emptyCells b).map fun c => self (play b flag c) (!flag)) := by
  unfold fullWidthBody
  simp only [hw, hf, if_false, Nat.succ_ne_zero]

theorem minimaxFuel_within : ∀ (fuel d : Nat), d ≤ fuel → d ≤ 64 →
    ∀ (b : Board) (flag : Bool) (alpha beta : Int),
      -1000000 ≤ alpha → alpha < beta → beta ≤ 1000000 →
      ∃ r mv, minimaxFuel fuel b (d : Int) flag alpha beta = some (r, mv) ∧
        Within alpha beta (fullWidth d b flag) r ∧
        -(100000 + (d : Int)) ≤ r ∧ r ≤ 100000 + (d : Int)
  | fuel, d, hdf, hd64, b, flag, alpha, beta, ha, hab, hb => by
    rw [minimaxFuel_eq_body, fullWidth_eq_body]
    rcases winCheck_cases WIN_MASKS b (d : Int) with hw | hw | hw
    · by_cases hf : popcountll (b.x_mask ||| b.o_mask) = 64
      · rw [minimaxBody_full _ _ _ _ _ _ hw hf]
        rw [fullWidthBody_full _ _ _ _ hw hf]
        exact ⟨0, -1, rfl, Within_self _ _ _, by omega, by omega⟩
      · cases d with
        | zero =>
          rw [fullWidthBody_cutoff _ _ _ hw hf]
          rw [Nat.cast_zero] at hw ⊢
          rw [minimaxBody_cutoff _ _ _ _ _ hw hf]
          have hev := evaluateBoard_bound b
          exact ⟨evaluateBoard b, -1, rfl, Within_self _ _ _, by omega, by omega⟩
        | succ k =>
          cases fuel with
          | zero => omega
          | succ f =>
            have hd0 : ((k + 1 : Nat) : Int) ≠ 0 := by omega
            have hk : ((k + 1 : Nat) : Int) - 1 = (k : Int) := by omega
            rw [minimaxBody_search _ _ _ _ _ _ hw hf hd0, hk]
            have hne := emptyCells_ne_nil hf
            rw [fullWidthBody_search _ _ _ _ hw hf]
            have ih := minimaxFuel_within f k (by omega) (by omega)
            cases hcells : emptyCells b with
            | nil => exact absurd hcells hne
            | cons c cs =>
              cases flag with
              | true =>
                have hc : ∀ m ∈ c :: cs, ∀ a, -1000000 ≤ a → a < beta →
                    ∃ s, (fun b2 f2 a2 c2 => (minimaxFuel f b2 (k : Int) f2 a2 c2).map Prod.fst)
                        (b.orX (moveBit m).1 (moveBit m).2) false a beta = some s ∧
                      Within a beta ((fun m => fullWidth k (play b true m) false) m) s ∧
                      -(100000 + (k : Int)) ≤ s ∧ s ≤ 100000 + (k : Int) := by
                  intro m _ a ha2 hab2
                  obtain ⟨r, mv, hr, hw2, h1, h2⟩ :=
                    ih (b.orX (moveBit m).1 (moveBit m).2) false a beta ha2 hab2 hb
                  exact ⟨r, by simp only [hr, Option.map_some'], hw2, h1, h2⟩
                obtain ⟨r, mv, hr, h1, h2, h3, h4⟩ :=
                  searchMoves_max
                    (fun b2 f2 a2 c2 => (minimaxFuel f b2 (k : Int) f2 a2 c2).map Prod.fst) b
                    (fun m => fullWidth k (play b true m) false)
                    (-(100000 + (k : Int))) (100000 + (k : Int)) beta (c :: cs) hc
                    alpha (-1000000) (-1) ha ha hab
                have hbd := h3 (List.cons_ne_nil _ _) (by omega)
                have hr2 : r ≤ 100000 + (k : Int) := by omega
                refine ⟨r, mv, hr, ?_, by push_cast; omega, by push_cast; omega⟩
                rw [bestOf_true_map (fun m => fullWidth k (play b true m) (!true))]
                rw [maxFrom_cons] at h4
                have hfb := (fullWidth_bound k (play b true c) false).1
                rw [max_eq_right (by omega)] at h4
                exact h4
              | false =>
                have hc : ∀ m ∈ c :: cs, ∀ bb, bb ≤ 1000000 → alpha < bb →
                    ∃ s, (fun b2 f2 a2 c2 => (minimaxFuel f b2 (k : Int) f2 a2 c2).map Prod.fst)
                        (b.orO (moveBit m).1 (moveBit m).2) true alpha bb = some s ∧
                      Within alpha bb ((fun m => fullWidth k (play b false m) true) m) s ∧
                      -(100000 + (k : Int)) ≤ s ∧ s ≤ 100000 + (k : Int) := by
                  intro m _ bb hb2 hab2
                  obtain ⟨r, mv, hr, hw2, h1, h2⟩ :=
                    ih (b.orO (moveBit m).1 (moveBit m).2) true alpha bb ha hab2 hb2
                  exact ⟨r, by simp only [hr, Option.map_some'], hw2, h1, h2⟩
                obtain ⟨r, mv, hr, h1, h2, h3, h4⟩ :=
                  searchMoves_min
                    (fun b2 f2 a2 c2 => (minimaxFuel f b2 (k : Int) f2 a2 c2).map Prod.fst) b
                    (fun m => fullWidth k (play b false m) true)
                    (-(100000 + (k : Int))) (100000 + (k : Int)) alpha (c :: cs) hc
                    beta 1000000 (-1) hb hb hab
                have hbd := h3 (List.cons_ne_nil _ _) (by omega)
                have hr2 : -(100000 + (k : Int)) ≤ r := by omega
                refine ⟨r, mv, hr, ?_, by push_cast; omega, by push_cast; omega⟩
                rw [bestOf_false_map (fun m => fullWidth k (play b false m) (!false))]
                rw [minFrom_cons] at h4
                have hfb := (fullWidth_bound k (play b false c) true).2
                rw [min_eq_right (by omega)] at h4
                exact h4
    · rw [minimaxBody_win _ _ _ _ _ _ _ hw, fullWidthBody_win _ _ _ _ _ hw]
      exact ⟨_, _, rfl, Within_self _ _ _, by omega, by omega⟩
    · rw [minimaxBody_win _ _ _ _ _ _ _ hw, fullWidthBody_win _ _ _ _ _ hw]
      exact ⟨_, _, rfl, Within_self _ _ _, by omega, by omega⟩

/-! ## The move chosen at the root -/

theorem le_maxFrom_of_mem (t : Nat → Int) : ∀ (l : List Nat) (x : Int) (m : Nat),
    m ∈ l → t m ≤ maxFrom t x l
  | c :: l, x, m, hm => by
    rw [maxFrom_cons]
    rcases List.mem_cons.1 hm with h | h
    · subst h
      have := le_maxFrom t l (max x (t m))
      omega
    · exact le_maxFrom_of_mem t l _ m h

theorem minFrom_le_of_mem (t : Nat → Int) : ∀ (l : List Nat) (x : Int) (m : Nat),
    m ∈ l → minFrom t x l ≤ t m
  | c :: l, x, m, hm => by
    rw [minFrom_cons]
    rcases List.mem_cons.1 hm with h | h
    · subst h
      have := minFrom_le t l (min x (t m))
      omega
    · exact minFrom_le_of_mem t l _ m h

theorem searchMoves_root_max (search : Board → Bool → Int → Int → Option Int) (board : Board)
    (t : Nat → Int) :
    ∀ (rest : List Nat),
      (∀ m ∈ rest, ∀ a, -1000000 ≤ a → a < 1000000 →
        ∃ s, search (board.orX (moveBit m).1 (moveBit m).2) false a 1000000 = some s ∧
          Within a 1000000 (t m) s) →
      (∀ m ∈ rest, t m < 1000000) →
      ∀ (bs bm : Int), -1000000 ≤ bs → bs < 1000000 →
        ∃ mv, searchMoves search board true rest bs 1000000 bs bm =
            some (maxFrom t bs rest, mv) ∧
          ((maxFrom t bs rest = bs ∧ mv = bm) ∨
            (bs < maxFrom t bs rest ∧ ∃ (pre : List Nat) (c : Nat) (post : List Nat), rest = pre ++ c :: post ∧ mv = (c : Int) ∧
              t c = maxFrom t bs rest ∧ ∀ m ∈ pre, t m < maxFrom t bs rest))
  | [], _, _, bs, bm, _, _ => ⟨bm, rfl, Or.inl ⟨rfl, rfl⟩⟩
  | m :: tl, hc, ht, bs, bm, hbs, hbs2 => by
    obtain ⟨s, hs, hw⟩ := hc m (List.mem_cons_self _ _) bs hbs hbs2
    have htm := ht m (List.mem_cons_self _ _)
    have hc2 : ∀ m ∈ tl, ∀ a, -1000000 ≤ a → a < 1000000 →
        ∃ s, search (board.orX (moveBit m).1 (moveBit m).2) false a 1000000 = some s ∧
          Within a 1000000 (t m) s :=
      fun m hm => hc m (List.mem_cons_of_mem _ hm)
    have ht2 : ∀ m ∈ tl, t m < 1000000 := fun m hm => ht m (List.mem_cons_of_mem _ hm)
    unfold Within at hw
    unfold searchMoves
    simp only [if_true, hs]
    rw [maxFrom_cons]
    by_cases hgt : s > bs
    · have hst : s = t m := by omega
      have hmax : max bs s = s := by omega
      have hmax2 : max bs (t m) = s := by omega
      have hcut : ¬ (1000000 : Int) ≤ s := by omega
      simp only [hgt, if_true, hmax, hcut, if_false, hmax2]
      obtain ⟨mv, hr, hcase⟩ := searchMoves_root_max search board t tl hc2 ht2 s m
        (by omega) (by omega)
      refine ⟨mv, hr, Or.inr ⟨?_, ?_⟩⟩
      · have := le_maxFrom t tl s; omega
      · rcases hcase with ⟨h1, h2⟩ | ⟨h1, pre, c, post, h2, h3, h4, h5⟩
        · exact ⟨[], m, tl, rfl, h2, by omega, fun x hx => absurd hx (List.not_mem_nil _)⟩
        · refine ⟨m :: pre, c, post, by rw [h2]; rfl, h3, h4, ?_⟩
          intro x hx
          rcases List.mem_cons.1 hx with h | h
          · subst h; omega
          · exact h5 x h
    · have hmax : max bs bs = bs := max_self bs
      have hmax2 : max bs (t m) = bs := by omega
      have hcut : ¬ (1000000 : Int) ≤ bs := by omega
      simp only [hgt, if_false, hmax, hcut, hmax2]
      obtain ⟨mv, hr, hcase⟩ := searchMoves_root_max search board t tl hc2 ht2 bs bm hbs hbs2
      refine ⟨mv, hr, ?_⟩
      rcases hcase with ⟨h1, h2⟩ | ⟨h1, pre, c, post, h2, h3, h4, h5⟩
      · exact Or.inl ⟨h1, h2⟩
      · refine Or.inr ⟨h1, m :: pre, c, post, by rw [h2]; rfl, h3, h4, ?_⟩
        intro x hx
        rcases List.mem_cons.1 hx with h | h
        · subst h; omega
        · exact h5 x h

theorem searchMoves_root_min (search : Board → Bool → Int → Int → Option Int) (board : Board)
    (t : Nat → Int) :
    ∀ (rest : List Nat),
      (∀ m ∈ rest, ∀ b, b ≤ 1000000 → -1000000 < b →
        ∃ s, search (board.orO (moveBit m).1 (moveBit m).2) true (-1000000) b = some s ∧
          Within (-1000000) b (t m) s) →
      (∀ m ∈ rest, -1000000 < t m) →
      ∀ (bs bm : Int), bs ≤ 1000000 → -1000000 < bs →
        ∃ mv, searchMoves search board false rest (-1000000) bs bs bm =
            some (minFrom t bs rest, mv) ∧
          ((minFrom t bs rest = bs ∧ mv = bm) ∨
            (minFrom t bs rest < bs ∧ ∃ (pre : List Nat) (c : Nat) (post : List Nat), rest = pre ++ c :: post ∧ mv = (c : Int) ∧
              t c = minFrom t bs rest ∧ ∀ m ∈ pre, minFrom t bs rest < t m))
  | [], _, _, bs, bm, _, _ => ⟨bm, rfl, Or.inl ⟨rfl, rfl⟩⟩
  | m :: tl, hc, ht, bs, bm, hbs, hbs2 => by
    obtain ⟨s, hs, hw⟩ := hc m (List.mem_cons_self _ _) bs hbs hbs2
    have htm := ht m (List.mem_cons_self _ _)
    have hc2 : ∀ m ∈ tl, ∀ b, b ≤ 1000000 → -1000000 < b →
        ∃ s, search (board.orO (moveBit m).1 (moveBit m).2) true (-1000000) b = some s ∧
          Within (-1000000) b (t m) s :=
      fun m hm => hc m (List.mem_cons_of_mem _ hm)
    have ht2 : ∀ m ∈ tl, -1000000 < t m := fun m hm => ht m (List.mem_cons_of_mem _ hm)
    unfold Within at hw
    unfold searchMoves
    simp only [Bool.false_eq_true, if_false, hs]
    rw [minFrom_cons]
    by_cases hgt : s < bs
    · have hst : s = t m := by omega
      have hmax : min bs s = s := by omega
      have hmax2 : min bs (t m) = s := by omega
      have hcut : ¬ s ≤ (-1000000 : Int) := by omega
      simp only [hgt, if_true, hmax, hcut, if_false, hmax2]
      obtain ⟨mv, hr, hcase⟩ := searchMoves_root_min search board t tl hc2 ht2 s m
        (by omega) (by omega)
      refine ⟨mv, hr, Or.inr ⟨?_, ?_⟩⟩
      · have := minFrom_le t tl s; omega
      · rcases hcase with ⟨h1, h2⟩ | ⟨h1, pre, c, post, h2, h3, h4, h5⟩
        · exact ⟨[], m, tl, rfl, h2, by omega, fun x hx => absurd hx (List.not_mem_nil _)⟩
        · refine ⟨m :: pre, c, post, by rw [h2]; rfl, h3, h4, ?_⟩
          intro x hx
          rcases List.mem_cons.1 hx with h | h
          · subst h; omega
          · exact h5 x h
    · have hmax : min bs bs = bs := min_self bs
      have hmax2 : min bs (t m) = bs := by omega
      have hcut : ¬ bs ≤ (-1000000 : Int) := by omega
      simp only [hgt, if_false, hmax, hcut, hmax2]
      obtain ⟨mv, hr, hcase⟩ := searchMoves_root_min search board t tl hc2 ht2 bs bm hbs hbs2
      refine ⟨mv, hr, ?_⟩
      rcases hcase with ⟨h1, h2⟩ | ⟨h1, pre, c, post, h2, h3, h4, h5⟩
      · exact Or.inl ⟨h1, h2⟩
      · refine Or.inr ⟨h1, m :: pre, c, post, by rw [h2]; rfl, h3, h4, ?_⟩
        intro x hx
        rcases List.mem_cons.1 hx with h | h
        · subst h; omega
        · exact h5 x h

theorem emptyCells_pairwise (b : Board) : (emptyCells b).Pairwise (· < ·) :=
  List.Pairwise.sublist (List.filter_sublist _) (List.pairwise_lt_range 64)

theorem lt_mem_split {l pre post : List Nat} {c x : Nat} (hp : l.Pairwise (· < ·))
    (hl : l = pre ++ c :: post) (hx : x ∈ l) (hlt : x < c) : x ∈ pre := by
  subst hl
  rw [List.pairwise_append] at hp
  obtain ⟨_, hp2, _⟩ := hp
  rw [List.pairwise_cons] at hp2
  rcases List.mem_append.1 hx with h | h
  · exact h
  · rcases List.mem_cons.1 h with h | h
    · omega
    · have := hp2.1 x h; omega

theorem minimax_root (b : Board) (k : Nat) (hk : k + 1 ≤ 64) (flag : Bool)
    (hx : ¬ hasLine b.x_mask) (ho : ¬ hasLine b.o_mask)
    (hf : popcountll (b.x_mask ||| b.o_mask) ≠ 64) :
    ∃ c : Nat, minimax b ((k + 1 : Nat) : Int) flag (-1000000) 1000000 =
        some (fullWidth (k + 1) b flag, (c : Int)) ∧
      c ∈ emptyCells b ∧
      fullWidth k (play b flag c) (!flag) = fullWidth (k + 1) b flag ∧
      (∀ c2 ∈ emptyCells b, c2 < c →
        fullWidth k (play b flag c2) (!flag) ≠ fullWidth (k + 1) b flag) ∧
      (∀ c2 ∈ emptyCells b,
        if flag then fullWidth k (play b flag c2) (!flag) ≤ fullWidth (k + 1) b flag
        else fullWidth (k + 1) b flag ≤ fullWidth k (play b flag c2) (!flag)) := by
  have hw : winCheck WIN_MASKS b ((k + 1 : Nat) : Int) = none :=
    (winCheck_none_iff b _).2 ⟨hx, ho⟩
  have hd0 : ((k + 1 : Nat) : Int) ≠ 0 := by omega
  have hkk : ((k + 1 : Nat) : Int) - 1 = (k : Int) := by omega
  have hpw := emptyCells_pairwise b
  have hne := emptyCells_ne_nil hf
  unfold minimax
  rw [show (64 : Nat) = 63 + 1 from rfl, minimaxFuel_succ,
    minimaxBody_search _ _ _ _ _ _ hw hf hd0, hkk]
  rw [show fullWidth (k + 1) = fullWidthBody (fullWidth k) (k + 1) from rfl,
    fullWidthBody_search _ _ _ _ hw hf]
  have ih := minimaxFuel_within 63 k (by omega) (by omega)
  cases flag with
  | true =>
    have hc : ∀ m ∈ emptyCells b, ∀ a, -1000000 ≤ a → a < 1000000 →
        ∃ s, (fun b2 f2 a2 c2 => (minimaxFuel 63 b2 (k : Int) f2 a2 c2).map Prod.fst)
            (b.orX (moveBit m).1 (moveBit m).2) false a 1000000 = some s ∧
          Within a 1000000 ((fun m => fullWidth k (play b true m) false) m) s := by
      intro m _ a ha2 hab2
      obtain ⟨r, mv, hr, hw2, _, _⟩ :=
        ih (b.orX (moveBit m).1 (moveBit m).2) false a 1000000 ha2 hab2 (le_refl _)
      exact ⟨r, by simp only [hr, Option.map_some'], hw2⟩
    have ht : ∀ m ∈ emptyCells b, (fun m => fullWidth k (play b true m) false) m < 1000000 := by
      intro m _
      have := (fullWidth_bound k (play b true m) false).2
      simp only; omega
    obtain ⟨mv, hr, hcase⟩ := searchMoves_root_max
      (fun b2 f2 a2 c2 => (minimaxFuel 63 b2 (k : Int) f2 a2 c2).map Prod.fst) b
      (fun m => fullWidth k (play b true m) false) (emptyCells b) hc ht (-1000000) (-1)
      (le_refl _) (by omega)
    have hV : bestOf true ((emptyCells b).map fun c => fullWidth k (play b true c) (!true)) =
        maxFrom (fun m => fullWidth k (play b true m) false) (-1000000) (emptyCells b) := by
      cases hcells : emptyCells b with
      | nil => exact absurd hcells hne
      | cons c cs =>
        rw [bestOf_true_map (fun m => fullWidth k (play b true m) (!true)), maxFrom_cons]
        have hfb := (fullWidth_bound k (play b true c) false).1
        rw [max_eq_right (by omega)]
        rfl
    rw [hV]
    rcases hcase with ⟨h1, _⟩ | ⟨_, pre, c, post, h2, h3, h4, h5⟩
    · exfalso
      cases hcells : emptyCells b with
      | nil => exact absurd hcells hne
      | cons c cs =>
        have := le_maxFrom_of_mem (fun m => fullWidth k (play b true m) false)
          (emptyCells b) (-1000000) c (by rw [hcells]; exact List.mem_cons_self _ _)
        have hfb := (fullWidth_bound k (play b true c) false).1
        rw [h1] at this
        simp only at this
        omega
    · have hcm : c ∈ emptyCells b := by rw [h2]; simp
      refine ⟨c, by rw [h3] at hr; exact hr, hcm, h4, ?_, ?_⟩
      · intro c2 hc2 hlt
        exact ne_of_lt (h5 c2 (lt_mem_split hpw h2 hc2 hlt))
      · intro c2 hc2
        simp only [if_true]
        exact le_maxFrom_of_mem _ _ _ c2 hc2
  | false =>
    have hc : ∀ m ∈ emptyCells b, ∀ bb, bb ≤ 1000000 → -1000000 < bb →
        ∃ s, (fun b2 f2 a2 c2 => (minimaxFuel 63 b2 (k : Int) f2 a2 c2).map Prod.fst)
            (b.orO (moveBit m).1 (moveBit m).2) true (-1000000) bb = some s ∧
          Within (-1000000) bb ((fun m => fullWidth k (play b false m) true) m) s := by
      intro m _ bb hb2 hab2
      obtain ⟨r, mv, hr, hw2, _, _⟩ :=
        ih (b.orO (moveBit m).1 (moveBit m).2) true (-1000000) bb (le_refl _) hab2 hb2
      exact ⟨r, by simp only [hr, Option.map_some'], hw2⟩
    have ht : ∀ m ∈ emptyCells b, -1000000 < (fun m => fullWidth k (play b false m) true) m := by
      intro m _
      have := (fullWidth_bound k (play b false m) true).1
      simp only; omega
    obtain ⟨mv, hr, hcase⟩ := searchMoves_root_min
      (fun b2 f2 a2 c2 => (minimaxFuel 63 b2 (k : Int) f2 a2 c2).map Prod.fst) b
      (fun m => fullWidth k (play b false m) true) (emptyCells b) hc ht 1000000 (-1)
      (le_refl _) (by omega)
    have hV : bestOf false ((emptyCells b).map fun c => fullWidth k (play b false c) (!false)) =
        minFrom (fun m => fullWidth k (play b false m) true) 1000000 (emptyCells b) := by
      cases hcells : emptyCells b with
      | nil => exact absurd hcells hne
      | cons c cs =>
        rw [bestOf_false_map (fun m => fullWidth k (play b false m) (!false)), minFrom_cons]
        have hfb := (fullWidth_bound k (play b false c) true).2
        rw [min_eq_right (by omega)]
        rfl
    rw [hV]
    rcases hcase with ⟨h1, _⟩ | ⟨_, pre, c, post, h2, h3, h4, h5⟩
    · exfalso
      cases hcells : emptyCells b with
      | nil => exact absurd hcells hne
      | cons c cs =>
        have := minFrom_le_of_mem (fun m => fullWidth k (play b false m) true)
          (emptyCells b) 1000000 c (by rw [hcells]; exact List.mem_cons_self _ _)
        have hfb := (fullWidth_bound k (play b false c) true).2
        rw [h1] at this
        simp only at this
        omega
    · have hcm : c ∈ emptyCells b := by rw [h2]; simp
      refine ⟨c, by rw [h3] at hr; exact hr, hcm, h4, ?_, ?_⟩
      · intro c2 hc2 hlt
        exact ne_of_gt (h5 c2 (lt_mem_split hpw h2 hc2 hlt))
      · intro c2 hc2
        simp only [Bool.false_eq_true, if_false]
        exact minFrom_le_of_mem _ _ _ c2 hc2

/-! ## Win in one -/

theorem two_cells_outside_table :
    (WIN_MASKS.all fun L => WIN_MASKS.all fun mask =>
      mask == L || ((mask &&& not64 L) &&& ((mask &&& not64 L) - 1) != 0)) = true := by
  rw [WIN_MASKS_eq]
  decide!

theorem WIN_MASKS_lt_table : (WIN_MASKS.all fun L => decide (L < 2 ^ 64)) = true := by
  rw [WIN_MASKS_eq]
  decide

theorem WIN_MASKS_lt {L : Nat} (hL : L ∈ WIN_MASKS) : L < 2 ^ 64 := by
  have h := List.all_eq_true.1 WIN_MASKS_lt_table L hL
  exact of_decide_eq_true h

theorem two_cells_outside {L mask : Nat} (hL : L ∈ WIN_MASKS) (hm : mask ∈ WIN_MASKS)
    (hne : mask ≠ L) : (mask &&& not64 L) &&& ((mask &&& not64 L) - 1) ≠ 0 := by
  have h := List.all_eq_true.1 (List.all_eq_true.1 two_cells_outside_table L hL) mask hm
  simpa [hne] using h

theorem single_bit_and_pred {d m : Nat} (h : ∀ i, d.testBit i = true → i = m) :
    d &&& (d - 1) = 0 := by
  by_cases h0 : d = 0
  · subst h0; simp
  · obtain ⟨j, hj⟩ := Nat.ne_zero_implies_bit_true h0
    have hjm := h j hj
    subst hjm
    have hd : d = 2 ^ j := by
      apply Nat.eq_of_testBit_eq
      intro i
      rw [Nat.testBit_two_pow]
      by_cases hij : j = i
      · subst hij; simp [hj]
      · have : d.testBit i = false := by
          by_contra hc
          exact hij (h i (by simpa using hc)).symm
        simp [this, hij]
    rw [hd]
    apply Nat.eq_of_testBit_eq
    intro i
    rw [Nat.testBit_and, Nat.testBit_two_pow, Nat.testBit_two_pow_sub_one, Nat.zero_testBit]
    by_cases hij : j = i
    · subst hij; simp
    · simp [hij]

theorem and_eq_testBit {x mask : Nat} (h : x &&& mask = mask) (i : Nat)
    (hi : mask.testBit i = true) : x.testBit i = true := by
  have := congrArg (fun n => n.testBit i) h
  simp only [Nat.testBit_and, hi, Bool.and_true] at this
  exact this

/-- Cells taken from a win line without its cell `c`, plus at most one further cell `m`,
never contain a complete win line. -/
theorem no_line_of_three {L c m mask x : Nat} (hL : L ∈ WIN_MASKS) (hmask : mask ∈ WIN_MASKS)
    (hc : L.testBit c = true) (hmc : m ≠ c)
    (hx : ∀ i, x.testBit i = true → (L.testBit i = true ∧ i ≠ c) ∨ i = m) :
    x &&& mask ≠ mask := by
  intro h
  by_cases hne : mask = L
  · subst hne
    rcases hx c (and_eq_testBit h c hc) with h1 | h1
    · exact h1.2 rfl
    · exact hmc h1.symm
  · apply two_cells_outside hL hmask hne
    apply single_bit_and_pred (m := m)
    intro i hi
    rw [Nat.testBit_and, testBit_not64 _ _ (WIN_MASKS_lt hL)] at hi
    simp only [Bool.and_eq_true, decide_eq_true_eq, Bool.not_eq_true'] at hi
    rcases hx i (and_eq_testBit h i hi.1) with h1 | h1
    · rw [h1.1] at hi; exact absurd hi.2.2 (by simp)
    · exact h1

theorem winCheck_x_first {b : Board} {d : Int} {mask : Nat} {post : List Nat}
    (hx : b.x_mask &&& mask = mask) : ∀ (pre : List Nat),
    (∀ m ∈ pre, b.o_mask &&& m ≠ m) →
    winCheck (pre ++ mask :: post) b d = some (100000 + d, -1)
  | [], _ => by simp [winCheck, hx]
  | a :: pre, ho => by
    rw [List.cons_append]
    unfold winCheck
    by_cases hxa : b.x_mask &&& a = a
    · simp [hxa]
    · have hoa := ho a (List.mem_cons_self _ _)
      simp only [hxa, hoa, if_false]
      exact winCheck_x_first hx pre (fun m hm => ho m (List.mem_cons_of_mem _ hm))

theorem winCheck_x_win {b : Board} {d : Int} (hx : hasLine b.x_mask)
    (ho : ¬ hasLine b.o_mask) : winCheck WIN_MASKS b d = some (100000 + d, -1) := by
  obtain ⟨mask, hm, hxm⟩ := hx
  obtain ⟨pre, post, hsplit⟩ := List.append_of_mem hm
  rw [hsplit]
  apply winCheck_x_first hxm
  intro m hmp he
  exact ho ⟨m, by rw [hsplit]; exact List.mem_append_left _ hmp, he⟩

theorem winCheck_no_x {b : Board} {d : Int} : ∀ (l : List Nat),
    (∀ mask ∈ l, b.x_mask &&& mask ≠ mask) →
    winCheck l b d = none ∨ winCheck l b d = some (-100000 - d, -1)
  | [], _ => Or.inl rfl
  | a :: l, h => by
    unfold winCheck
    have hxa := h a (List.mem_cons_self _ _)
    by_cases hoa : b.o_mask &&& a = a
    · simp [hxa, hoa]
    · simp only [hxa, hoa, if_false]
      exact winCheck_no_x l (fun m hm => h m (List.mem_cons_of_mem _ hm))

theorem fullWidth_le_of_no_x_line (d : Nat) (b : Board) (flag : Bool)
    (hx : ¬ hasLine b.x_mask) : fullWidth d b flag ≤ 100000 + (d : Int) - 1 := by
  rw [fullWidth_eq_body]
  rcases winCheck_no_x (b := b) (d := (d : Int)) WIN_MASKS
    (fun mask hm he => hx ⟨mask, hm, he⟩) with hw | hw
  · by_cases hf : popcountll (b.x_mask ||| b.o_mask) = 64
    · rw [fullWidthBody_full _ _ _ _ hw hf]; omega
    · cases d with
      | zero =>
        rw [fullWidthBody_cutoff _ _ _ hw hf]
        have := evaluateBoard_bound b
        omega
      | succ k =>
        rw [fullWidthBody_search _ _ _ _ hw hf]
        have := (bestOf_bound flag (-(100000 + (k : Int))) (100000 + (k : Int))
          ((emptyCells b).map fun c => fullWidth k (play b flag c) (!flag))
          (by omega) (by omega) (by
            intro v hv
            rw [List.mem_map] at hv
            obtain ⟨c, _, rfl⟩ := hv
            exact fullWidth_bound k (play b flag c) (!flag))).2
        push_cast
        omega
  · rw [fullWidthBody_win _ _ _ _ _ hw]
    simp only
    omega

/-! ## The claims about the search -/

theorem not_full_of_empty_cell {b : Board}
    (h : ∃ c, c < 64 ∧ (b.x_mask ||| b.o_mask).testBit c = false) :
    popcountll (b.x_mask ||| b.o_mask) ≠ 64 := by
  intro hf
  obtain ⟨c, hc, hb⟩ := h
  rw [(popcountll_eq_64_iff _).1 hf c hc] at hb
  exact absurd hb (by decide)

/-- C1 (alpha-beta equivalence): for every board, every `maxDepth` with
`0 ≤ maxDepth ≤ 64` and either value of the maximizing flag, the call
`minimax(board, maxDepth, maximizing, -1000000, 1000000)` returns, and its score is the
score `fullWidth` of the unpruned full-width depth-limited search. -/
theorem alpha_beta_equivalence (board : Board) (maxDepth : Int) (maximizing : Bool)
    (h0 : 0 ≤ maxDepth) (h64 : maxDepth ≤ 64) :
    ∃ move, minimax board maxDepth maximizing (-1000000) 1000000 =
      some (fullWidth maxDepth.toNat board maximizing, move) := by
  have hd : ((maxDepth.toNat : Nat) : Int) = maxDepth := Int.toNat_of_nonneg h0
  obtain ⟨r, mv, hr, hw, h1, h2⟩ := minimaxFuel_within 64 maxDepth.toNat (by omega) (by omega)
    board maximizing (-1000000) 1000000 (le_refl _) (by omega) (le_refl _)
  have hb := fullWidth_bound maxDepth.toNat board maximizing
  rw [hd] at hr
  refine ⟨mv, ?_⟩
  unfold minimax
  rw [hr]
  unfold Within at hw
  have : r = fullWidth maxDepth.toNat board maximizing := hw.2.2 (by omega) (by omega)
  rw [this]

/-- Witness of C1: the empty board searched two plies deep by X. -/
theorem alpha_beta_equivalence_witness :
    (0 : Int) ≤ 2 ∧ (2 : Int) ≤ 64 ∧
      ∃ move, minimax Board.empty 2 true (-1000000) 1000000 =
        some (fullWidth (2 : Int).toNat Board.empty true, move) :=
  ⟨by decide, by decide, alpha_beta_equivalence Board.empty 2 true (by decide) (by decide)⟩

/-- C2 (tie-break rule): on a board with no complete win line and at least one empty
cell, for `1 ≤ maxDepth ≤ 64` and either player to move, the top-level search returns a
move `c` that is an empty cell, whose child position has the optimal unpruned score at
depth `maxDepth - 1` (greatest for X, least for O) among all empty cells, and no empty
cell of lower bit index has a child position with that score. -/
theorem tie_break_rule (board : Board) (maxDepth : Int) (maximizing : Bool)
    (hx : ¬ hasLine board.x_mask) (ho : ¬ hasLine board.o_mask)
    (hempty : ∃ c, c < 64 ∧ (board.x_mask ||| board.o_mask).testBit c = false)
    (h1 : 1 ≤ maxDepth) (h64 : maxDepth ≤ 64) :
    ∃ (score : Int) (c : Nat),
      minimax board maxDepth maximizing (-1000000) 1000000 = some (score, (c : Int)) ∧
      c < 64 ∧ (board.x_mask ||| board.o_mask).testBit c = false ∧
      (∀ c2, c2 < 64 → (board.x_mask ||| board.o_mask).testBit c2 = false →
        if maximizing then
          fullWidth (maxDepth - 1).toNat (play board maximizing c2) (!maximizing) ≤
            fullWidth (maxDepth - 1).toNat (play board maximizing c) (!maximizing)
        else
          fullWidth (maxDepth - 1).toNat (play board maximizing c) (!maximizing) ≤
            fullWidth (maxDepth - 1).toNat (play board maximizing c2) (!maximizing)) ∧
      (∀ c2, c2 < c → (board.x_mask ||| board.o_mask).testBit c2 = false →
        fullWidth (maxDepth - 1).toNat (play board maximizing c2) (!maximizing) ≠
          fullWidth (maxDepth - 1).toNat (play board maximizing c) (!maximizing)) := by
  have hd : (((maxDepth - 1).toNat + 1 : Nat) : Int) = maxDepth := by
    have := Int.toNat_of_nonneg (show 0 ≤ maxDepth - 1 by omega)
    push_cast
    omega
  obtain ⟨c, hr, hc, hv, hlow, hopt⟩ := minimax_root board (maxDepth - 1).toNat
    (by omega) maximizing hx ho (not_full_of_empty_cell hempty)
  rw [hd] at hr
  have hcm := mem_emptyCells.1 hc
  refine ⟨_, c, hr, hcm.1, hcm.2, ?_, ?_⟩
  · intro c2 h2 hb2
    have := hopt c2 (mem_emptyCells.2 ⟨h2, hb2⟩)
    rw [hv]
    exact this
  · intro c2 h2 hb2
    rw [hv]
    exact hlow c2 (mem_emptyCells.2 ⟨by omega, hb2⟩) h2

/-- Witness of C2: the empty board, X to move, one ply. -/
theorem tie_break_rule_witness :
    ¬ hasLine Board.empty.x_mask ∧ ¬ hasLine Board.empty.o_mask ∧
      ∃ (score : Int) (c : Nat),
        minimax Board.empty 1 true (-1000000) 1000000 = some (score, (c : Int)) ∧ c < 64 :=
  ⟨by decide, by decide,
    let ⟨score, c, h, hc, _⟩ := tie_break_rule Board.empty 1 true (by decide) (by decide)
      ⟨0, by decide, by decide⟩ (by decide) (by decide)
    ⟨score, c, h, hc⟩⟩

theorem testBit_three_of_line {L c : Nat} (hL : L ∈ WIN_MASKS) (hc : L.testBit c = true)
    (i : Nat) : (L &&& not64 (1 <<< c)).testBit i = (L.testBit i && decide (i ≠ c)) := by
  have hL64 := WIN_MASKS_lt hL
  have hc64 : c < 64 := testBit_lt_64 hL64 hc
  have h1 : (1 <<< c : Nat) < 2 ^ 64 := by
    rw [Nat.one_shiftLeft]
    exact Nat.pow_lt_pow_right (by decide) hc64
  rw [Nat.testBit_and, testBit_not64 _ _ h1, Nat.one_shiftLeft, Nat.testBit_two_pow]
  by_cases hli : L.testBit i = true
  · have hi64 : i < 64 := testBit_lt_64 hL64 hli
    by_cases hic : i = c
    · subst hic; simp
    · have : ¬ c = i := fun h => hic h.symm
      simp [hli, hi64, hic, this]
  · simp [hli]

/-- C3 (win in one): if `x_mask` is a win line `L` without its cell `c`, and `o_mask` is
disjoint from `x_mask`, does not hold `c` and has no complete win line, then for
`1 ≤ maxDepth ≤ 64` the search with X to move returns the move `c` with the score
`100000 + maxDepth - 1`, which is at least 100000. -/
theorem win_in_one (L : Nat) (c : Nat) (board : Board) (maxDepth : Int)
    (hL : L ∈ WIN_MASKS) (hc : L.testBit c = true)
    (hx : board.x_mask = L &&& not64 (1 <<< c))
    (_hdisj : board.x_mask &&& board.o_mask = 0)
    (hoc : board.o_mask.testBit c = false)
    (ho : ¬ hasLine board.o_mask)
    (h1 : 1 ≤ maxDepth) (h64 : maxDepth ≤ 64) :
    minimax board maxDepth true (-1000000) 1000000 =
        some (100000 + maxDepth - 1, (c : Int)) ∧
      100000 ≤ 100000 + maxDepth - 1 := by
  refine ⟨?_, by omega⟩
  have hL64 := WIN_MASKS_lt hL
  have hc64 : c < 64 := testBit_lt_64 hL64 hc
  have hxb : ∀ i, board.x_mask.testBit i = (L.testBit i && decide (i ≠ c)) := by
    intro i; rw [hx]; exact testBit_three_of_line hL hc i
  have hxc : board.x_mask.testBit c = false := by rw [hxb]; simp
  -- the root is neither won nor full
  have hnx : ¬ hasLine board.x_mask := by
    rintro ⟨mask, hm, he⟩
    refine no_line_of_three hL hm hc (Nat.succ_ne_self c) ?_ he
    intro i hi
    rw [hxb] at hi
    simp only [Bool.and_eq_true, decide_eq_true_eq] at hi
    exact Or.inl hi
  have hce : (board.x_mask ||| board.o_mask).testBit c = false := by
    rw [Nat.testBit_or, hxc, hoc]; rfl
  have hnf := not_full_of_empty_cell ⟨c, hc64, hce⟩
  have hd : (((maxDepth - 1).toNat + 1 : Nat) : Int) = maxDepth := by
    have := Int.toNat_of_nonneg (show 0 ≤ maxDepth - 1 by omega)
    push_cast
    omega
  have hk : (((maxDepth - 1).toNat : Nat) : Int) = maxDepth - 1 :=
    Int.toNat_of_nonneg (by omega)
  obtain ⟨c1, hr, hc1, hv, _, hopt⟩ := minimax_root board (maxDepth - 1).toNat
    (by omega) true hnx ho hnf
  rw [hd] at hr
  -- the child after `c` is a win for X
  have hwin : fullWidth (maxDepth - 1).toNat (play board true c) false =
      100000 + (maxDepth - 1) := by
    have hline : hasLine (play board true c).x_mask := by
      refine ⟨L, hL, ?_⟩
      apply Nat.eq_of_testBit_eq
      intro i
      show ((board.x_mask ||| (moveBit c).1) &&& L).testBit i = L.testBit i
      rw [Nat.testBit_and, Nat.testBit_or, hxb, testBit_moveBit]
      by_cases hli : L.testBit i = true
      · have hi64 : i < 64 := testBit_lt_64 hL64 hli
        by_cases hic : i = c
        · subst hic; simp [hli, hi64]
        · simp [hli, hic]
      · simp [hli]
    have hw : winCheck WIN_MASKS (play board true c) (((maxDepth - 1).toNat : Nat) : Int) =
        some (100000 + (((maxDepth - 1).toNat : Nat) : Int), -1) :=
      winCheck_x_win hline ho
    rw [fullWidth_eq_body, fullWidthBody_win _ _ _ _ _ hw, hk]
  -- every other child is not
  have hother : ∀ c2, c2 ≠ c →
      fullWidth (maxDepth - 1).toNat (play board true c2) false ≤ 100000 + (maxDepth - 1) - 1 := by
    intro c2 hne
    have hno : ¬ hasLine (play board true c2).x_mask := by
      rintro ⟨mask, hm, he⟩
      refine no_line_of_three hL hm hc hne ?_ he
      intro i hi
      have hi2 : (board.x_mask ||| (moveBit c2).1).testBit i = true := hi
      rw [Nat.testBit_or, hxb, testBit_moveBit] at hi2
      simp only [Bool.or_eq_true, Bool.and_eq_true, decide_eq_true_eq] at hi2
      rcases hi2 with h | h
      · exact Or.inl h
      · exact Or.inr h.2.symm
    have := fullWidth_le_of_no_x_line (maxDepth - 1).toNat (play board true c2) false hno
    rw [hk] at this
    exact this
  have hge := hopt c (mem_emptyCells.2 ⟨hc64, hce⟩)
  simp only [if_true, Bool.not_true] at hge hv
  have hcc : c1 = c := by
    by_contra hne
    have := hother c1 hne
    omega
  subst hcc
  rw [hr, ← hv, hwin]
  congr 2
  omega

/-- Witness of C3: X holds cells 0, 1, 2 of the first row, O holds cells 4, 5, 6. -/
theorem win_in_one_witness :
    minimax ⟨0x7, 0x70, by decide, by decide⟩ 1 true (-1000000) 1000000 =
        some (100000 + 1 - 1, ((3 : Nat) : Int)) ∧
      (100000 : Int) ≤ 100000 + 1 - 1 :=
  win_in_one 0xF 3 ⟨0x7, 0x70, by decide, by decide⟩ 1
    (by rw [WIN_MASKS_eq]; decide) (by decide) (by decide) (by decide) (by decide)
    (by decide) (by decide) (by decide)

theorem winCheck_move (l : List Nat) (b : Board) (d : Int) (r : Int × Int)
    (h : winCheck l b d = some r) : r.2 = -1 := by
  rcases winCheck_cases l b d with hw | hw | hw <;> rw [hw] at h
  · exact absurd h (by simp)
  · rw [← Option.some.inj h]
  · rw [← Option.some.inj h]

/-- C4 (engine output range): for `0 ≤ maxDepth ≤ 64` and either player to move,
`findBestMove` returns; the result is the sentinel `-1` exactly when some player has a
complete win line, or all 64 cells are occupied, or `maxDepth = 0`; otherwise it is the
index, in `[0, 64)`, of an empty cell. -/
theorem findBestMove_range (game : Game) (config : EngineConfig)
    (h0 : 0 ≤ config.maxDepth) (h64 : config.maxDepth ≤ 64) :
    ∃ move : Int, findBestMove game config = some move ∧
      (move = -1 ↔ (hasLine game.board_.x_mask ∨ hasLine game.board_.o_mask ∨
        popcountll (game.board_.x_mask ||| game.board_.o_mask) = 64 ∨ config.maxDepth = 0)) ∧
      (move ≠ -1 → 0 ≤ move ∧ move < 64 ∧
        (game.board_.x_mask ||| game.board_.o_mask).testBit move.toNat = false) := by
  unfold findBestMove Game.getBoard Game.getCurrentPlayer
  simp only
  generalize decide (game.currentPlayer_ = Player.X) = flag
  cases hw : winCheck WIN_MASKS game.board_ config.maxDepth with
  | some r =>
    have hline : hasLine game.board_.x_mask ∨ hasLine game.board_.o_mask := by
      by_contra hc
      rw [not_or] at hc
      rw [(winCheck_none_iff _ _).2 hc] at hw
      exact absurd hw (by simp)
    have hm := winCheck_move _ _ _ _ hw
    refine ⟨-1, ?_, ?_, fun h => absurd rfl h⟩
    · unfold minimax
      rw [show (64 : Nat) = 63 + 1 from rfl, minimaxFuel_succ, minimaxBody_win _ _ _ _ _ _ _ hw,
        Option.map_some', hm]
    · constructor
      · intro _
        rcases hline with h | h
        · exact Or.inl h
        · exact Or.inr (Or.inl h)
      · intro _; rfl
  | none =>
    have hno := (winCheck_none_iff _ _).1 hw
    by_cases hf : popcountll (game.board_.x_mask ||| game.board_.o_mask) = 64
    · refine ⟨-1, ?_, ?_, fun h => absurd rfl h⟩
      · unfold minimax
        rw [show (64 : Nat) = 63 + 1 from rfl, minimaxFuel_succ,
          minimaxBody_full _ _ _ _ _ _ hw hf, Option.map_some']
      · exact ⟨fun _ => Or.inr (Or.inr (Or.inl hf)), fun _ => rfl⟩
    · by_cases hd : config.maxDepth = 0
      · refine ⟨-1, ?_, ?_, fun h => absurd rfl h⟩
        · unfold minimax
          rw [hd] at hw ⊢
          rw [show (64 : Nat) = 63 + 1 from rfl, minimaxFuel_succ,
            minimaxBody_cutoff _ _ _ _ _ hw hf, Option.map_some']
        · exact ⟨fun _ => Or.inr (Or.inr (Or.inr hd)), fun _ => rfl⟩
      · have hdd : (((config.maxDepth - 1).toNat + 1 : Nat) : Int) = config.maxDepth := by
          have := Int.toNat_of_nonneg (show 0 ≤ config.maxDepth - 1 by omega)
          push_cast
          omega
        obtain ⟨c, hr, hc, _⟩ := minimax_root game.board_ (config.maxDepth - 1).toNat
          (by omega) flag hno.1 hno.2 hf
        rw [hdd] at hr
        have hcm := mem_emptyCells.1 hc
        refine ⟨(c : Int), by rw [hr, Option.map_some'], ?_, ?_⟩
        · constructor
          · intro h; omega
          · rintro (h | h | h | h)
            · exact absurd h hno.1
            · exact absurd h hno.2
            · exact absurd h hf
            · exact absurd h hd
        · intro _
          refine ⟨by omega, by omega, ?_⟩
          rw [Int.toNat_ofNat]
          exact hcm.2

/-- Witness of C4: the board with X on cells 0, 1, 2 and O on cells 4, 5, 6, X to move. -/
theorem findBestMove_range_witness :
    ∃ move : Int,
      findBestMove ⟨⟨0x7, 0x70, by decide, by decide⟩, Player.X⟩ ⟨1⟩ = some move ∧
      (move ≠ -1 → 0 ≤ move ∧ move < 64) :=
  let ⟨move, h, _, hr⟩ := findBestMove_range ⟨⟨0x7, 0x70, by decide, by decide⟩, Player.X⟩ ⟨1⟩
    (by decide) (by decide)
  ⟨move, h, fun hne => ⟨(hr hne).1, (hr hne).2.1⟩⟩

/-- C5, counterexample: `x_mask` contains the win line `0xF0000`, yet `minimax` reports a
win for O, because the line `0xF` of O is tested first. -/
theorem win_detection_counterexample :
    hasLine bothLinesBoard.x_mask ∧
      minimax bothLinesBoard 0 true (-1000000) 1000000 = some (-100000 - 0, -1) ∧
      minimax bothLinesBoard 0 true (-1000000) 1000000 ≠ some (100000 + 0, -1) := by
  have h : minimax bothLinesBoard 0 true (-1000000) 1000000 = some (-100000 - 0, -1) := by
    unfold minimax
    rw [show (64 : Nat) = 63 + 1 from rfl, minimaxFuel_succ]
    apply minimaxBody_win
    rw [WIN_MASKS_eq]
    decide
  refine ⟨?_, h, ?_⟩
  · exact ⟨0xF0000, by rw [WIN_MASKS_eq]; decide, by decide⟩
  · rw [h]; decide

/-- C5 as amended (win detection): if some mask of `WIN_MASKS` is fully contained in
`x_mask` and no mask standing before it in the table is fully contained in `o_mask`, then
for every depth, flag, alpha and beta `minimax` returns exactly `(100000 + depth, -1)`. -/
theorem win_detection (board : Board) (depth : Int) (isMaximizing : Bool) (alpha beta : Int)
    (pre post : List Nat) (mask : Nat) (htable : WIN_MASKS = pre ++ mask :: post)
    (hx : board.x_mask &&& mask = mask) (ho : ∀ m ∈ pre, board.o_mask &&& m ≠ m) :
    minimax board depth isMaximizing alpha beta = some (100000 + depth, -1) := by
  unfold minimax
  rw [show (64 : Nat) = 63 + 1 from rfl, minimaxFuel_succ]
  apply minimaxBody_win
  rw [htable]
  exact winCheck_x_first hx pre ho

/-- Witness of C5 as amended: X holds the row of cells 16-19, second in the table, and O
holds three cells of the first row. -/
theorem win_detection_witness :
    minimax ⟨0xF0000, 0x7, by decide, by decide⟩ 3 false 0 0 = some (100000 + 3, -1) :=
  win_detection ⟨0xF0000, 0x7, by decide, by decide⟩ 3 false 0 0 [0xF] (WIN_MASKS.drop 2)
    0xF0000 (by rw [WIN_MASKS_eq]; decide) (by decide) (by decide)

theorem popcountll_zero : popcountll 0 = 0 := by
  decide

theorem evaluateBoard_empty : evaluateBoard Board.empty = 0 := by
  have step : ∀ (acc : Int) (mask : Nat), evalStep Board.empty acc mask = acc := by
    intro acc mask
    unfold evalStep
    simp [Board.empty, popcountll_zero]
  have fold : ∀ (l : List Nat) (acc : Int), l.foldl (evalStep Board.empty) acc = acc := by
    intro l
    induction l with
    | nil => intro acc; rfl
    | cons a l ih => intro acc; rw [List.foldl_cons, step, ih]
  exact fold WIN_MASKS 0

/-- C7 (depth cutoff): on a board with no complete win line and at least one empty cell,
for every flag, alpha and beta, `minimax` with depth 0 returns `(evaluateBoard(board), -1)`;
in particular on the empty board with X to move the score is 0 and there is no move, and
`findBestMove` with `maxDepth = 0` gives the sentinel `-1`. -/
theorem depth_cutoff (board : Board) (isMaximizing : Bool) (alpha beta : Int)
    (hx : ¬ hasLine board.x_mask) (ho : ¬ hasLine board.o_mask)
    (hempty : ∃ c, c < 64 ∧ (board.x_mask ||| board.o_mask).testBit c = false) :
    minimax board 0 isMaximizing alpha beta = some (evaluateBoard board, -1) ∧
    minimax Board.empty 0 true (-1000000) 1000000 = some (0, -1) ∧
    findBestMove ⟨Board.empty, Player.X⟩ ⟨0⟩ = some (-1) := by
  have key : ∀ (b : Board) (flag : Bool) (a c : Int), ¬ hasLine b.x_mask → ¬ hasLine b.o_mask →
      (∃ c, c < 64 ∧ (b.x_mask ||| b.o_mask).testBit c = false) →
      minimax b 0 flag a c = some (evaluateBoard b, -1) := by
    intro b flag a c h1 h2 h3
    unfold minimax
    rw [show (64 : Nat) = 63 + 1 from rfl, minimaxFuel_succ]
    exact minimaxBody_cutoff _ _ _ _ _ ((winCheck_none_iff _ _).2 ⟨h1, h2⟩)
      (not_full_of_empty_cell h3)
  have hE : minimax Board.empty 0 true (-1000000) 1000000 = some (0, -1) := by
    rw [key Board.empty true _ _ (by decide) (by decide) ⟨0, by decide, by decide⟩,
      evaluateBoard_empty]
  refine ⟨key board isMaximizing alpha beta hx ho hempty, hE, ?_⟩
  show (minimax Board.empty 0 (decide (Player.X = Player.X)) (-1000000) 1000000).map Prod.snd
    = some (-1)
  rw [show decide (Player.X = Player.X) = true from rfl, hE]
  rfl

/-- Witness of C7: X on cells 0, 1, 2 and O on cells 4, 5, 6. -/
theorem depth_cutoff_witness :
    minimax ⟨0x7, 0x70, by decide, by decide⟩ 0 false 0 0 =
      some (evaluateBoard ⟨0x7, 0x70, by decide, by decide⟩, -1) :=
  (depth_cutoff ⟨0x7, 0x70, by decide, by decide⟩ false 0 0 (by decide) (by decide)
    ⟨3, by decide, by decide⟩).1

/-! ## The claims about the evaluator -/

theorem popcount_table : (WIN_MASKS.all fun L => popcountll L == 4) = true := by
  rw [WIN_MASKS_eq]
  decide!

theorem popcountll_WIN_MASKS {L : Nat} (hL : L ∈ WIN_MASKS) : popcountll L = 4 := by
  have h := List.all_eq_true.1 popcount_table L hL
  simpa using h

theorem cellsOnLine_eq (m mask : Nat) : cellsOnLine m mask = popcountll (m &&& mask) := by
  unfold cellsOnLine popcountll
  congr 1
  apply List.filter_congr
  intro i _
  rw [Nat.testBit_and, Bool.and_comm]

theorem popcountll_and_le (m mask : Nat) : popcountll (m &&& mask) ≤ popcountll mask := by
  unfold popcountll
  apply List.Sublist.length_le
  apply List.monotone_filter_right
  intro i hi
  rw [Nat.testBit_and] at hi
  simp only [Bool.and_eq_true] at hi
  exact hi.2

theorem and_eq_of_popcountll_eq {m mask : Nat} (hm : mask < 2 ^ 64)
    (h : popcountll (m &&& mask) = popcountll mask) : m &&& mask = mask := by
  unfold popcountll at h
  have hsub : List.Sublist ((List.range 64).filter (fun i => (m &&& mask).testBit i))
      ((List.range 64).filter (fun i => mask.testBit i)) := by
    apply List.monotone_filter_right
    intro i hi
    rw [Nat.testBit_and] at hi
    simp only [Bool.and_eq_true] at hi
    exact hi.2
  have heq := List.Sublist.eq_of_length hsub h
  apply Nat.eq_of_testBit_eq
  intro i
  by_cases hb : mask.testBit i = true
  · have hi64 := testBit_lt_64 hm hb
    have hmem : i ∈ (List.range 64).filter (fun i => mask.testBit i) :=
      List.mem_filter.2 ⟨List.mem_range.2 hi64, hb⟩
    rw [← heq] at hmem
    rw [(List.mem_filter.1 hmem).2, hb]
  · rw [Nat.testBit_and]
    simp only [Bool.not_eq_true] at hb
    rw [hb, Bool.and_false]

theorem popcountll_and_le_three {m mask : Nat} (hL : mask ∈ WIN_MASKS)
    (h : m &&& mask ≠ mask) : popcountll (m &&& mask) ≤ 3 := by
  have h4 := popcountll_WIN_MASKS hL
  have hle := popcountll_and_le m mask
  have hne : popcountll (m &&& mask) ≠ popcountll mask :=
    fun he => h (and_eq_of_popcountll_eq (WIN_MASKS_lt hL) he)
  omega

theorem evalStep_eq_contribution (w : Nat → Int) (h1 : w 1 = 1) (h2 : w 2 = 10)
    (h3 : w 3 = 100) (b : Board) (acc : Int) (mask : Nat) (hL : mask ∈ WIN_MASKS)
    (hx : b.x_mask &&& mask ≠ mask) (ho : b.o_mask &&& mask ≠ mask) :
    evalStep b acc mask = acc + lineContribution w b mask := by
  have hx3 := popcountll_and_le_three hL hx
  have ho3 := popcountll_and_le_three hL ho
  unfold evalStep lineContribution
  rw [cellsOnLine_eq, cellsOnLine_eq]
  generalize popcountll (b.x_mask &&& mask) = kx at hx3 ⊢
  generalize popcountll (b.o_mask &&& mask) = ko at ho3 ⊢
  have hkx : kx = 0 ∨ kx = 1 ∨ kx = 2 ∨ kx = 3 := by omega
  have hko : ko = 0 ∨ ko = 1 ∨ ko = 2 ∨ ko = 3 := by omega
  rcases hkx with rfl | rfl | rfl | rfl <;> rcases hko with rfl | rfl | rfl | rfl <;>
    simp [weight, h1, h2, h3] <;> omega

theorem evalFold_eq_sum (w : Nat → Int) (h1 : w 1 = 1) (h2 : w 2 = 10) (h3 : w 3 = 100)
    (b : Board) : ∀ (l : List Nat) (acc : Int),
    (∀ mask ∈ l, mask ∈ WIN_MASKS ∧ b.x_mask &&& mask ≠ mask ∧ b.o_mask &&& mask ≠ mask) →
    l.foldl (evalStep b) acc = acc + (l.map (lineContribution w b)).sum
  | [], acc, _ => by simp
  | mask :: l, acc, h => by
    have hm := h mask (List.mem_cons_self _ _)
    rw [List.foldl_cons, evalStep_eq_contribution w h1 h2 h3 b acc mask hm.1 hm.2.1 hm.2.2,
      evalFold_eq_sum w h1 h2 h3 b l _ (fun m hm2 => h m (List.mem_cons_of_mem _ hm2)),
      List.map_cons, List.sum_cons]
    omega

/-- C8 (evaluator definition): on a board with disjoint masks and no complete win line,
`evaluateBoard` is the sum over the 76 win lines of the contribution of the line, `+w(k)`
for `k ≥ 1` cells of X and none of O, `-w(k)` for `k ≥ 1` cells of O and none of X, 0
otherwise, for any weights with `w(1) = 1`, `w(2) = 10`, `w(3) = 100`. -/
theorem evaluator_definition (w : Nat → Int) (board : Board)
    (h1 : w 1 = 1) (h2 : w 2 = 10) (h3 : w 3 = 100)
    (_hdisj : board.x_mask &&& board.o_mask = 0)
    (hx : ¬ hasLine board.x_mask) (ho : ¬ hasLine board.o_mask) :
    evaluateBoard board = evaluatorSpec w board ∧ WIN_MASKS.length = 76 := by
  refine ⟨?_, WIN_MASKS_length⟩
  unfold evaluateBoard evaluatorSpec
  rw [evalFold_eq_sum w h1 h2 h3 board WIN_MASKS 0
    (fun mask hm => ⟨hm, fun he => hx ⟨mask, hm, he⟩, fun he => ho ⟨mask, hm, he⟩⟩)]
  omega

/-- Witness of C8: X on cells 0, 1, 2 and O on cells 4, 5, 6, with the weights of the
source, `weight`. -/
theorem evaluator_definition_witness :
    evaluateBoard ⟨0x7, 0x70, by decide, by decide⟩ =
      evaluatorSpec (fun k => weight k) ⟨0x7, 0x70, by decide, by decide⟩ ∧
    WIN_MASKS.length = 76 :=
  evaluator_definition (fun k => weight k) ⟨0x7, 0x70, by decide, by decide⟩
    (by decide) (by decide) (by decide) (by decide) (by decide) (by decide)

theorem evalStep_swap (b : Board) (acc : Int) (mask : Nat) :
    evalStep b.swap (-acc) mask = -evalStep b acc mask := by
  unfold evalStep Board.swap
  simp only
  split_ifs <;> omega

theorem evalFold_swap (b : Board) : ∀ (l : List Nat) (acc : Int),
    l.foldl (evalStep b.swap) (-acc) = -l.foldl (evalStep b) acc
  | [], _ => rfl
  | mask :: l, acc => by
    rw [List.foldl_cons, List.foldl_cons, evalStep_swap, evalFold_swap b l]

/-- C9 (evaluator symmetry): on a board with no complete win line, `evaluateBoard` of the
board with `x_mask` and `o_mask` exchanged is the negation of `evaluateBoard` of the
board. -/
theorem evaluator_symmetry (board : Board)
    (_hx : ¬ hasLine board.x_mask) (_ho : ¬ hasLine board.o_mask) :
    evaluateBoard board.swap = -evaluateBoard board := by
  unfold evaluateBoard
  have := evalFold_swap board WIN_MASKS 0
  rw [neg_zero] at this
  exact this

/-- Witness of C9: X on cells 0, 1, 2 and O on cells 4, 5, 6. -/
theorem evaluator_symmetry_witness :
    evaluateBoard (Board.swap ⟨0x7, 0x70, by decide, by decide⟩) =
      -evaluateBoard ⟨0x7, 0x70, by decide, by decide⟩ :=
  evaluator_symmetry ⟨0x7, 0x70, by decide, by decide⟩ (by decide) (by decide)

/-! ## The table of win lines and the geometry of the grid -/

theorem mem_gridLines {k m : Nat} : (k, m) ∈ gridLines ↔ IsGridLine k m := by
  unfold gridLines IsGridLine
  simp only [List.mem_flatMap]
  constructor
  · rintro ⟨x, hx, y, hy, z, hz, dx, hdx, dy, hdy, dz, hdz, h⟩
    split_ifs at h with hg
    · simp only [List.mem_singleton, Prod.mk.injEq] at h
      refine ⟨x, y, z, dx, dy, dz, by simpa using hdx, by simpa using hdy, by simpa using hdz,
        ?_, hg.1, hg.2.1, hg.2.2, h.1.symm, h.2⟩
      simp only [List.mem_cons, List.mem_singleton, List.not_mem_nil, or_false] at hx hy hz
      unfold inGrid
      omega
    · exact absurd h (List.not_mem_nil _)
  · rintro ⟨x, y, z, dx, dy, dz, hdx, hdy, hdz, hg0, hg1, hg2, hg3, hk, hm⟩
    unfold inGrid at hg0
    refine ⟨x, ?_, y, ?_, z, ?_, dx, by simpa using hdx, dy, by simpa using hdy,
      dz, by simpa using hdz, ?_⟩
    · simp only [List.mem_cons, List.mem_singleton, List.not_mem_nil, or_false]; omega
    · simp only [List.mem_cons, List.mem_singleton, List.not_mem_nil, or_false]; omega
    · simp only [List.mem_cons, List.mem_singleton, List.not_mem_nil, or_false]; omega
    · rw [if_pos ⟨hg1, hg2, hg3⟩]
      simp only [List.mem_singleton, Prod.mk.injEq]
      exact ⟨hk.symm, hm⟩

theorem gridLines_table :
    (gridLines.all fun e =>
      (e.1 == 0) ||
      (e.1 == 1 && (WIN_MASKS.take 48).contains e.2) ||
      (e.1 == 2 && ((WIN_MASKS.drop 48).take 24).contains e.2) ||
      (e.1 == 3 && (WIN_MASKS.drop 72).contains e.2)) = true := by
  rw [WIN_MASKS_eq]
  decide!

theorem table_gridLines :
    ((WIN_MASKS.take 48).all fun m => gridLines.contains (1, m)) = true ∧
    (((WIN_MASKS.drop 48).take 24).all fun m => gridLines.contains (2, m)) = true ∧
    ((WIN_MASKS.drop 72).all fun m => gridLines.contains (3, m)) = true := by
  rw [WIN_MASKS_eq]
  decide!

theorem gridLines_cases {k m : Nat} (h : IsGridLine k m) :
    k = 0 ∨ (k = 1 ∧ m ∈ WIN_MASKS.take 48) ∨
      (k = 2 ∧ m ∈ (WIN_MASKS.drop 48).take 24) ∨ (k = 3 ∧ m ∈ WIN_MASKS.drop 72) := by
  have h1 := List.all_eq_true.1 gridLines_table (k, m) (mem_gridLines.2 h)
  simp only [Bool.or_eq_true, Bool.and_eq_true, beq_iff_eq, List.contains_eq_any_beq, List.any_eq_true,
    List.elem_eq_mem, decide_eq_true_eq, exists_eq_right] at h1
  rcases h1 with ((h1 | h1) | h1) | h1
  · exact Or.inl h1
  · obtain ⟨hk, x, hx, rfl⟩ := h1
    exact Or.inr (Or.inl ⟨hk, hx⟩)
  · obtain ⟨hk, x, hx, rfl⟩ := h1
    exact Or.inr (Or.inr (Or.inl ⟨hk, hx⟩))
  · obtain ⟨hk, x, hx, rfl⟩ := h1
    exact Or.inr (Or.inr (Or.inr ⟨hk, hx⟩))

theorem WIN_MASKS_split :
    WIN_MASKS = WIN_MASKS.take 48 ++ ((WIN_MASKS.drop 48).take 24 ++ WIN_MASKS.drop 72) := by
  have h1 := (List.take_append_drop 48 WIN_MASKS).symm
  have h2 := (List.take_append_drop 24 (WIN_MASKS.drop 48)).symm
  rw [List.drop_drop] at h2
  rw [← h2]
  exact h1

theorem WIN_MASKS_nodup : WIN_MASKS.Nodup := by
  rw [WIN_MASKS_eq]
  decide

/-- C10 (win-line table completeness): a mask occurs in `WIN_MASKS` if and only if it is
the mask of four cells `p, p + v, p + 2v, p + 3v` inside the grid for a cell `p` and a
direction `v` in `{-1, 0, 1}^3` that is not zero (`k ≠ 0` non-zero components); the lines
parallel to an axis are exactly the first 48 entries, the diagonals of planes exactly the
next 24 and the space diagonals exactly the last 4, and the 76 entries are distinct. -/
theorem win_table_complete :
    (∀ m : Nat, m ∈ WIN_MASKS ↔ ∃ k, k ≠ 0 ∧ IsGridLine k m) ∧
    (∀ m : Nat, IsGridLine 1 m ↔ m ∈ WIN_MASKS.take 48) ∧
    (∀ m : Nat, IsGridLine 2 m ↔ m ∈ (WIN_MASKS.drop 48).take 24) ∧
    (∀ m : Nat, IsGridLine 3 m ↔ m ∈ WIN_MASKS.drop 72) ∧
    (WIN_MASKS.take 48).length = 48 ∧ ((WIN_MASKS.drop 48).take 24).length = 24 ∧
    (WIN_MASKS.drop 72).length = 4 ∧ WIN_MASKS.length = 76 ∧ WIN_MASKS.Nodup := by
  obtain ⟨t1, t2, t3⟩ := table_gridLines
  have a1 : ∀ m : Nat, IsGridLine 1 m ↔ m ∈ WIN_MASKS.take 48 := by
    intro m
    constructor
    · intro h
      rcases gridLines_cases h with h | h | h | h
      · exact absurd h (by decide)
      · exact h.2
      · exact absurd h.1 (by decide)
      · exact absurd h.1 (by decide)
    · intro h
      have := List.all_eq_true.1 t1 m h
      exact mem_gridLines.1 (by simpa using this)
  have a2 : ∀ m : Nat, IsGridLine 2 m ↔ m ∈ (WIN_MASKS.drop 48).take 24 := by
    intro m
    constructor
    · intro h
      rcases gridLines_cases h with h | h | h | h
      · exact absurd h (by decide)
      · exact absurd h.1 (by decide)
      · exact h.2
      · exact absurd h.1 (by decide)
    · intro h
      have := List.all_eq_true.1 t2 m h
      exact mem_gridLines.1 (by simpa using this)
  have a3 : ∀ m : Nat, IsGridLine 3 m ↔ m ∈ WIN_MASKS.drop 72 := by
    intro m
    constructor
    · intro h
      rcases gridLines_cases h with h | h | h | h
      · exact absurd h (by decide)
      · exact absurd h.1 (by decide)
      · exact absurd h.1 (by decide)
      · exact h.2
    · intro h
      have := List.all_eq_true.1 t3 m h
      exact mem_gridLines.1 (by simpa using this)
  refine ⟨?_, a1, a2, a3, ?_, ?_, ?_, WIN_MASKS_length, WIN_MASKS_nodup⟩
  · intro m
    constructor
    · intro h
      rw [WIN_MASKS_split] at h
      rcases List.mem_append.1 h with h | h
      · exact ⟨1, by decide, (a1 m).2 h⟩
      · rcases List.mem_append.1 h with h | h
        · exact ⟨2, by decide, (a2 m).2 h⟩
        · exact ⟨3, by decide, (a3 m).2 h⟩
    · rintro ⟨k, hk, h⟩
      rcases gridLines_cases h with h | h | h | h
      · exact absurd h hk
      · exact List.mem_of_mem_take h.2
      · exact List.mem_of_mem_drop (List.mem_of_mem_take h.2)
      · exact List.mem_of_mem_drop h.2
  · rw [List.length_take, WIN_MASKS_length]; rfl
  · rw [List.length_take, List.length_drop, WIN_MASKS_length]; rfl
  · rw [List.length_drop, WIN_MASKS_length]

/-! ## The turn manager -/

theorem bit_at_eq {x y z : Int} (h : inGrid x y z) :
    bit_at x y z = 2 ^ (bitIndex x y z).toNat ∧ (bitIndex x y z).toNat < 64 := by
  unfold inGrid at h
  have hlt : (bitIndex x y z).toNat < 64 := by unfold bitIndex; omega
  refine ⟨?_, hlt⟩
  show (1 <<< (x + 4 * y + 16 * z).toNat) % 2 ^ 64 = 2 ^ (x + 4 * y + 16 * z).toNat
  rw [Nat.one_shiftLeft]
  exact Nat.mod_eq_of_lt (Nat.pow_lt_pow_right (by decide) hlt)

theorem and_two_pow_ne_zero (n i : Nat) : n &&& 2 ^ i ≠ 0 ↔ n.testBit i = true := by
  rw [Nat.and_two_pow]
  cases n.testBit i
  · simp
  · simp

theorem makeMove_in_range (g : Game) (x y z : Int) (h : inGrid x y z) :
    g.makeMove x y z =
      if g.board_.x_mask.testBit (bitIndex x y z).toNat = true ∨
          g.board_.o_mask.testBit (bitIndex x y z).toNat = true then (false, g)
      else if g.currentPlayer_ = Player.X then
        (true, ⟨g.board_.orX (bit_at x y z) (Nat.mod_lt _ (by decide)), Player.O⟩)
      else
        (true, ⟨g.board_.orO (bit_at x y z) (Nat.mod_lt _ (by decide)), Player.X⟩) := by
  have hb := (bit_at_eq h).1
  unfold inGrid at h
  unfold Game.makeMove
  have hr : ¬ (x < 0 ∨ x ≥ 4 ∨ y < 0 ∨ y ≥ 4 ∨ z < 0 ∨ z ≥ 4) := by omega
  simp only [hr, if_false]
  have h1 : (g.board_.x_mask &&& bit_at x y z ≠ 0) ↔
      g.board_.x_mask.testBit (bitIndex x y z).toNat = true := by
    rw [hb]; exact and_two_pow_ne_zero _ _
  have h2 : (g.board_.o_mask &&& bit_at x y z ≠ 0) ↔
      g.board_.o_mask.testBit (bitIndex x y z).toNat = true := by
    rw [hb]; exact and_two_pow_ne_zero _ _
  simp only [h1, h2]

theorem makeMove_out_of_range (g : Game) (x y z : Int) (h : ¬ inGrid x y z) :
    g.makeMove x y z = (false, g) := by
  unfold inGrid at h
  unfold Game.makeMove
  have hr : x < 0 ∨ x ≥ 4 ∨ y < 0 ∨ y ≥ 4 ∨ z < 0 ∨ z ≥ 4 := by omega
  simp only [hr, if_true]

/-- C15 (illegal moves are rejected atomically): for every game state and all integers
`x`, `y`, `z`, `makeMove(x, y, z)` returns false if and only if some coordinate is outside
`[0, 4)` or the bit `x + 4y + 16z` is already set in `x_mask` or `o_mask`; and whenever it
returns false the masks and the current player are unchanged. -/
theorem illegal_moves_rejected (g : Game) (x y z : Int) :
    ((g.makeMove x y z).1 = false ↔
      (¬ inGrid x y z ∨ g.board_.x_mask.testBit (bitIndex x y z).toNat = true ∨
        g.board_.o_mask.testBit (bitIndex x y z).toNat = true)) ∧
    ((g.makeMove x y z).1 = false → (g.makeMove x y z).2 = g) := by
  by_cases hin : inGrid x y z
  · rw [makeMove_in_range g x y z hin]
    by_cases hocc : g.board_.x_mask.testBit (bitIndex x y z).toNat = true ∨
        g.board_.o_mask.testBit (bitIndex x y z).toNat = true
    · rw [if_pos hocc]
      exact ⟨⟨fun _ => Or.inr hocc, fun _ => rfl⟩, fun _ => rfl⟩
    · rw [if_neg hocc]
      by_cases hp : g.currentPlayer_ = Player.X
      · rw [if_pos hp]
        refine ⟨⟨fun h => Bool.noConfusion h, ?_⟩, fun h => Bool.noConfusion h⟩
        rintro (h | h)
        · exact absurd hin h
        · exact absurd h hocc
      · rw [if_neg hp]
        refine ⟨⟨fun h => Bool.noConfusion h, ?_⟩, fun h => Bool.noConfusion h⟩
        rintro (h | h)
        · exact absurd hin h
        · exact absurd h hocc
  · rw [makeMove_out_of_range g x y z hin]
    exact ⟨⟨fun _ => Or.inl hin, fun _ => rfl⟩, fun _ => rfl⟩

theorem testBit_or_bit_at {x y z : Int} (h : inGrid x y z) (m i : Nat) :
    (m ||| bit_at x y z).testBit i = (m.testBit i || decide (i = (bitIndex x y z).toNat)) := by
  rw [Nat.testBit_or, (bit_at_eq h).1, Nat.testBit_two_pow]
  congr 1
  by_cases hi : i = (bitIndex x y z).toNat
  · simp [hi]
  · have : ¬ (bitIndex x y z).toNat = i := fun h2 => hi h2.symm
    simp [hi, this]

/-- C16 (accepted-move effect): when the current player is X or O, the coordinates are in
range and the cell is empty, `makeMove(x, y, z)` returns true, sets exactly the bit
`x + 4y + 16z` in the mask of the player to move (every other bit of that mask keeps its
value), leaves the other mask unchanged and hands the move to the other player. -/
theorem accepted_move_effect (g : Game) (x y z : Int)
    (hp : g.currentPlayer_ = Player.X ∨ g.currentPlayer_ = Player.O)
    (hin : inGrid x y z)
    (hx : g.board_.x_mask.testBit (bitIndex x y z).toNat = false)
    (ho : g.board_.o_mask.testBit (bitIndex x y z).toNat = false) :
    (g.makeMove x y z).1 = true ∧
    (g.currentPlayer_ = Player.X →
      (∀ i, (g.makeMove x y z).2.board_.x_mask.testBit i =
        (g.board_.x_mask.testBit i || decide (i = (bitIndex x y z).toNat))) ∧
      (g.makeMove x y z).2.board_.o_mask = g.board_.o_mask ∧
      (g.makeMove x y z).2.currentPlayer_ = Player.O) ∧
    (g.currentPlayer_ = Player.O →
      (∀ i, (g.makeMove x y z).2.board_.o_mask.testBit i =
        (g.board_.o_mask.testBit i || decide (i = (bitIndex x y z).toNat))) ∧
      (g.makeMove x y z).2.board_.x_mask = g.board_.x_mask ∧
      (g.makeMove x y z).2.currentPlayer_ = Player.X) := by
  have hocc : ¬ (g.board_.x_mask.testBit (bitIndex x y z).toNat = true ∨
      g.board_.o_mask.testBit (bitIndex x y z).toNat = true) := by
    rw [hx, ho]; simp
  rw [makeMove_in_range g x y z hin, if_neg hocc]
  rcases hp with hp | hp
  · rw [if_pos hp]
    refine ⟨rfl, fun _ => ⟨fun i => testBit_or_bit_at hin _ i, rfl, rfl⟩, ?_⟩
    intro h; rw [hp] at h; exact absurd h (by decide)
  · have hne : ¬ g.currentPlayer_ = Player.X := by rw [hp]; decide
    rw [if_neg hne]
    refine ⟨rfl, ?_, fun _ => ⟨fun i => testBit_or_bit_at hin _ i, rfl, rfl⟩⟩
    intro h; exact absurd h hne

/-- Witness of C16: the first move of a game, X on the cell (1, 2, 3). -/
theorem accepted_move_effect_witness :
    ((Game.play []).makeMove 1 2 3).1 = true ∧
      ((Game.play []).makeMove 1 2 3).2.currentPlayer_ = Player.O :=
  let h := accepted_move_effect (Game.play []) 1 2 3 (Or.inl rfl) (by decide) (by decide)
    (by decide)
  ⟨h.1, (h.2.1 rfl).2.2⟩

theorem and_eq_zero_iff_testBit (a b : Nat) :
    a &&& b = 0 ↔ ∀ i, ¬ (a.testBit i = true ∧ b.testBit i = true) := by
  constructor
  · intro h i hi
    have := congrArg (fun n => n.testBit i) h
    simp only [Nat.testBit_and, hi.1, hi.2, Nat.zero_testBit, Bool.and_self] at this
    exact absurd this (by decide)
  · intro h
    apply Nat.eq_of_testBit_eq
    intro i
    rw [Nat.testBit_and, Nat.zero_testBit]
    have := h i
    cases ha : a.testBit i <;> cases hb : b.testBit i <;> simp_all

theorem makeMove_disjoint (g : Game) (x y z : Int)
    (h : g.board_.x_mask &&& g.board_.o_mask = 0) :
    (g.makeMove x y z).2.board_.x_mask &&& (g.makeMove x y z).2.board_.o_mask = 0 := by
  by_cases hin : inGrid x y z
  · rw [makeMove_in_range g x y z hin]
    by_cases hocc : g.board_.x_mask.testBit (bitIndex x y z).toNat = true ∨
        g.board_.o_mask.testBit (bitIndex x y z).toNat = true
    · rw [if_pos hocc]; exact h
    · rw [if_neg hocc]
      rw [not_or] at hocc
      rw [and_eq_zero_iff_testBit] at h
      by_cases hp : g.currentPlayer_ = Player.X
      · rw [if_pos hp, and_eq_zero_iff_testBit]
        intro i hi
        have h1 : (g.board_.x_mask ||| bit_at x y z).testBit i = true := hi.1
        have h2 : g.board_.o_mask.testBit i = true := hi.2
        rw [testBit_or_bit_at hin] at h1
        simp only [Bool.or_eq_true, decide_eq_true_eq] at h1
        rcases h1 with h1 | h1
        · exact h i ⟨h1, h2⟩
        · rw [h1] at h2; exact hocc.2 h2
      · rw [if_neg hp, and_eq_zero_iff_testBit]
        intro i hi
        have h1 : g.board_.x_mask.testBit i = true := hi.1
        have h2 : (g.board_.o_mask ||| bit_at x y z).testBit i = true := hi.2
        rw [testBit_or_bit_at hin] at h2
        simp only [Bool.or_eq_true, decide_eq_true_eq] at h2
        rcases h2 with h2 | h2
        · exact h i ⟨h1, h2⟩
        · rw [h2] at h1; exact hocc.1 h1
  · rw [makeMove_out_of_range g x y z hin]; exact h

theorem filter_disjoint_length (p q : Nat → Bool) (h : ∀ i, ¬ (p i = true ∧ q i = true)) :
    ∀ l : List Nat, (l.filter p).length + (l.filter q).length ≤ l.length
  | [] => by simp
  | a :: l => by
    have ih := filter_disjoint_length p q h l
    have ha := h a
    rw [List.filter_cons, List.filter_cons]
    cases hp : p a <;> cases hq : q a <;> simp_all <;> omega

theorem popcountll_disjoint {a b : Nat} (h : a &&& b = 0) :
    popcountll a + popcountll b ≤ 64 := by
  have := filter_disjoint_length (fun i => a.testBit i) (fun i => b.testBit i)
    ((and_eq_zero_iff_testBit a b).1 h) (List.range 64)
  rw [List.length_range] at this
  exact this

theorem play_disjoint_from (moves : List (Int × Int × Int)) : ∀ g : Game,
    g.board_.x_mask &&& g.board_.o_mask = 0 →
    (moves.foldl (fun g m => (g.makeMove m.1 m.2.1 m.2.2).2) g).board_.x_mask &&&
      (moves.foldl (fun g m => (g.makeMove m.1 m.2.1 m.2.2).2) g).board_.o_mask = 0 := by
  induction moves with
  | nil => intro g h; exact h
  | cons m moves ih =>
    intro g h
    rw [List.foldl_cons]
    exact ih _ (makeMove_disjoint g _ _ _ h)

/-- C14 (board invariant): in every game state reached from `reset()` by a sequence of
`makeMove` calls with arbitrary integer arguments, accepted or rejected,
`x_mask & o_mask = 0` and `popcount(x_mask) + popcount(o_mask) ≤ 64`. -/
theorem board_invariant (moves : List (Int × Int × Int)) :
    (Game.play moves).board_.x_mask &&& (Game.play moves).board_.o_mask = 0 ∧
    popcountll (Game.play moves).board_.x_mask +
      popcountll (Game.play moves).board_.o_mask ≤ 64 := by
  have h : (Game.play moves).board_.x_mask &&& (Game.play moves).board_.o_mask = 0 :=
    play_disjoint_from moves _ rfl
  exact ⟨h, popcountll_disjoint h⟩

theorem minimax_eq_body (b : Board) (d : Int) (f : Bool) (a c : Int) :
    minimax b d f a c = minimaxBody (minimaxFuel 63) b d f a c := rfl


/-- C17, the code at a failing input: after the seven moves X(0,0,0), O(0,1,0), X(1,0,0),
O(1,1,0), X(2,0,0), O(2,1,0), X(3,0,0), all accepted, X holds the complete row `0xF` and
`minimax` reports the win `(100000 + depth, -1)`, but `checkGameState` answers `ONGOING`
(as it does in every state) and not `X_WINS`. -/
theorem checkGameState_ongoing_on_won_board :
    (Game.play [(0, 0, 0), (0, 1, 0), (1, 0, 0), (1, 1, 0), (2, 0, 0), (2, 1, 0),
      (3, 0, 0)]).board_.x_mask = 0xF ∧
    (Game.play [(0, 0, 0), (0, 1, 0), (1, 0, 0), (1, 1, 0), (2, 0, 0), (2, 1, 0),
      (3, 0, 0)]).board_.o_mask = 0x70 ∧
    hasLine (0xF : Nat) ∧
    minimax ⟨0xF, 0x70, by decide, by decide⟩ 2 false (-1000000) 1000000 =
      some (100000 + 2, -1) ∧
    (Game.play [(0, 0, 0), (0, 1, 0), (1, 0, 0), (1, 1, 0), (2, 0, 0), (2, 1, 0),
      (3, 0, 0)]).checkGameState = GameState.ONGOING ∧
    (∀ g : Game, g.checkGameState = GameState.ONGOING) := by
  refine ⟨by decide, by decide, ⟨0xF, by rw [WIN_MASKS_eq]; decide, by decide⟩, ?_, rfl,
    fun _ => rfl⟩
  rw [minimax_eq_body]
  apply minimaxBody_win
  rw [WIN_MASKS_eq]
  decide

/-- C11 (win-line table shape): `WIN_MASKS` has 76 entries, every entry has exactly 4 bits
set, and the entries are pairwise distinct. -/
theorem win_table_shape :
    WIN_MASKS.length = 76 ∧ (∀ mask ∈ WIN_MASKS, popcountll mask = 4) ∧
      WIN_MASKS.Pairwise (fun a b => a ≠ b) :=
  ⟨WIN_MASKS_length, fun _ h => popcountll_WIN_MASKS h, WIN_MASKS_nodup⟩

/-- C12 (bit-index bijection): for `x`, `y`, `z` in `[0, 4)` the value `bit_at(x, y, z)` is
`1 << (x + 4y + 16z)`, a mask with the single bit `x + 4y + 16z`, which lies in `[0, 64)`;
the map `(x, y, z) ↦ x + 4y + 16z` is injective on the valid triples and onto `[0, 64)`; and
`(1, 2, 3)` is mapped to bit 57. -/
theorem bit_index_bijection :
    (∀ x y z : Int, inGrid x y z →
      0 ≤ bitIndex x y z ∧ bitIndex x y z < 64 ∧
      bit_at x y z = 1 <<< (bitIndex x y z).toNat ∧
      ∀ j, (bit_at x y z).testBit j = decide ((bitIndex x y z).toNat = j)) ∧
    (∀ x y z x2 y2 z2 : Int, inGrid x y z → inGrid x2 y2 z2 →
      bitIndex x y z = bitIndex x2 y2 z2 → x = x2 ∧ y = y2 ∧ z = z2) ∧
    (∀ b : Int, 0 ≤ b → b < 64 → ∃ x y z : Int, inGrid x y z ∧ bitIndex x y z = b) ∧
    bitIndex 1 2 3 = 57 ∧ bit_at 1 2 3 = 1 <<< 57 := by
  refine ⟨?_, ?_, ?_, by decide, by decide⟩
  · intro x y z h
    have hb := (bit_at_eq h).1
    unfold inGrid at h
    refine ⟨by unfold bitIndex; omega, by unfold bitIndex; omega, ?_, ?_⟩
    · rw [hb, Nat.one_shiftLeft]
    · intro j; rw [hb, Nat.testBit_two_pow]
  · intro x y z x2 y2 z2 h h2 he
    unfold inGrid at h h2
    unfold bitIndex at he
    omega
  · intro b h0 h64
    refine ⟨b % 4, b / 4 % 4, b / 16, ?_, ?_⟩
    · unfold inGrid; omega
    · unfold bitIndex; omega

theorem play_true (b : Board) (m : Nat) :
    play b true m = b.orX (moveBit m).1 (moveBit m).2 := rfl

theorem play_false (b : Board) (m : Nat) :
    play b false m = b.orO (moveBit m).1 (moveBit m).2 := rfl

theorem searchMoves_bound (search : Board → Bool → Int → Int → Option Int) (board : Board)
    (flag : Bool) (lo hi : Int) :
    ∀ (rest : List Nat),
      (∀ m ∈ rest, ∀ a b, ∃ s, search (play board flag m) (!flag) a b = some s ∧
        lo ≤ s ∧ s ≤ hi) →
      ∀ (a b bs bm : Int),
        ∃ r mv, searchMoves search board flag rest a b bs bm = some (r, mv) ∧
          (r = bs ∨ (lo ≤ r ∧ r ≤ hi)) ∧
          (rest ≠ [] → (flag = true → bs < lo) → (flag = false → hi < bs) →
            lo ≤ r ∧ r ≤ hi)
  | [], _, _, _, bs, bm => ⟨bs, bm, rfl, Or.inl rfl, fun h => absurd rfl h⟩
  | m :: tl, hc, a, b, bs, bm => by
    obtain ⟨s, hs, hlo, hhi⟩ := hc m (List.mem_cons_self _ _) a b
    have ih := searchMoves_bound search board flag lo hi tl
      (fun m hm => hc m (List.mem_cons_of_mem _ hm))
    unfold searchMoves
    cases flag with
    | true =>
      rw [play_true, Bool.not_true] at hs
      simp only [if_true, hs]
      by_cases hgt : s > bs
      · simp only [hgt, if_true]
        by_cases hcut : b ≤ max a s
        · simp only [hcut, if_true]
          exact ⟨s, m, rfl, Or.inr ⟨hlo, hhi⟩, fun _ _ _ => ⟨hlo, hhi⟩⟩
        · simp only [hcut, if_false]
          obtain ⟨r, mv, hr, h1, _⟩ := ih (max a s) b s m
          refine ⟨r, mv, hr, Or.inr (by omega), fun _ _ _ => by omega⟩
      · simp only [hgt, if_false]
        by_cases hcut : b ≤ max a bs
        · simp only [hcut, if_true]
          exact ⟨bs, bm, rfl, Or.inl rfl, fun _ h _ => by have := h trivial; omega⟩
        · simp only [hcut, if_false]
          obtain ⟨r, mv, hr, h1, _⟩ := ih (max a bs) b bs bm
          exact ⟨r, mv, hr, h1, fun _ h _ => by have := h trivial; omega⟩
    | false =>
      rw [play_false, Bool.not_false] at hs
      simp only [Bool.false_eq_true, if_false, hs]
      by_cases hgt : s < bs
      · simp only [hgt, if_true]
        by_cases hcut : min b s ≤ a
        · simp only [hcut, if_true]
          exact ⟨s, m, rfl, Or.inr ⟨hlo, hhi⟩, fun _ _ _ => ⟨hlo, hhi⟩⟩
        · simp only [hcut, if_false]
          obtain ⟨r, mv, hr, h1, _⟩ := ih a (min b s) s m
          refine ⟨r, mv, hr, Or.inr (by omega), fun _ _ _ => by omega⟩
      · simp only [hgt, if_false]
        by_cases hcut : min b bs ≤ a
        · simp only [hcut, if_true]
          exact ⟨bs, bm, rfl, Or.inl rfl, fun _ _ h => by have := h trivial; omega⟩
        · simp only [hcut, if_false]
          obtain ⟨r, mv, hr, h1, _⟩ := ih a (min b bs) bs bm
          exact ⟨r, mv, hr, h1, fun _ _ h => by have := h trivial; omega⟩

theorem minimaxFuel_bound : ∀ (fuel d : Nat), d ≤ fuel → d ≤ 64 →
    ∀ (b : Board) (flag : Bool) (alpha beta : Int),
      ∃ r mv, minimaxFuel fuel b (d : Int) flag alpha beta = some (r, mv) ∧
        -(100000 + (d : Int)) ≤ r ∧ r ≤ 100000 + (d : Int)
  | fuel, d, hdf, hd64, b, flag, alpha, beta => by
    rw [minimaxFuel_eq_body]
    rcases winCheck_cases WIN_MASKS b (d : Int) with hw | hw | hw
    · by_cases hf : popcountll (b.x_mask ||| b.o_mask) = 64
      · rw [minimaxBody_full _ _ _ _ _ _ hw hf]
        exact ⟨0, -1, rfl, by omega, by omega⟩
      · cases d with
        | zero =>
          rw [Nat.cast_zero] at hw ⊢
          rw [minimaxBody_cutoff _ _ _ _ _ hw hf]
          have hev := evaluateBoard_bound b
          exact ⟨evaluateBoard b, -1, rfl, by omega, by omega⟩
        | succ k =>
          cases fuel with
          | zero => omega
          | succ f =>
            have hd0 : ((k + 1 : Nat) : Int) ≠ 0 := by omega
            have hk : ((k + 1 : Nat) : Int) - 1 = (k : Int) := by omega
            rw [minimaxBody_search _ _ _ _ _ _ hw hf hd0, hk]
            have ih := minimaxFuel_bound f k (by omega) (by omega)
            obtain ⟨r, mv, hr, _, h2⟩ := searchMoves_bound
              (fun b2 f2 a2 c2 => (minimaxFuel f b2 (k : Int) f2 a2 c2).map Prod.fst) b flag
              (-(100000 + (k : Int))) (100000 + (k : Int)) (emptyCells b)
              (by
                intro m _ a c
                obtain ⟨r, mv, hr, h1, h2⟩ := ih (play b flag m) (!flag) a c
                exact ⟨r, by simp only [hr, Option.map_some'], h1, h2⟩)
              alpha beta (if flag then -1000000 else 1000000) (-1)
            have hb := h2 (emptyCells_ne_nil hf)
              (fun h => by rw [h]; simp only [if_true]; omega)
              (fun h => by rw [h]; simp only [Bool.false_eq_true, if_false]; omega)
            exact ⟨r, mv, hr, by push_cast; omega, by push_cast; omega⟩
    · rw [minimaxBody_win _ _ _ _ _ _ _ hw]
      exact ⟨_, _, rfl, by omega, by omega⟩
    · rw [minimaxBody_win _ _ _ _ _ _ _ hw]
      exact ⟨_, _, rfl, by omega, by omega⟩

/-- C19 (score bounds): `|evaluateBoard(board)| ≤ 7600` for every board; and for
`0 ≤ depth ≤ 64`, every flag and every alpha and beta, whatever their order, `minimax`
returns a score with `|score| ≤ 100000 + depth`, hence strictly between the sentinels
`-1000000` and `1000000`. -/
theorem score_bounds (board : Board) (depth : Int) (isMaximizing : Bool) (alpha beta : Int)
    (h0 : 0 ≤ depth) (h64 : depth ≤ 64) :
    |evaluateBoard board| ≤ 7600 ∧
    ∃ score move, minimax board depth isMaximizing alpha beta = some (score, move) ∧
      |score| ≤ 100000 + depth ∧ -1000000 < score ∧ score < 1000000 := by
  have hev := evaluateBoard_bound board
  refine ⟨abs_le.2 ⟨hev.1, hev.2⟩, ?_⟩
  have hd : ((depth.toNat : Nat) : Int) = depth := Int.toNat_of_nonneg h0
  obtain ⟨r, mv, hr, h1, h2⟩ := minimaxFuel_bound 64 depth.toNat (by omega) (by omega)
    board isMaximizing alpha beta
  rw [hd] at hr h1 h2
  exact ⟨r, mv, hr, abs_le.2 ⟨by omega, h2⟩, by omega, by omega⟩

/-- Witness of C19: the empty board searched three plies deep with an empty window. -/
theorem score_bounds_witness :
    |evaluateBoard Board.empty| ≤ 7600 ∧
    ∃ score move, minimax Board.empty 3 false 5 (-5) = some (score, move) ∧
      |score| ≤ 100000 + 3 ∧ -1000000 < score ∧ score < 1000000 :=
  score_bounds Board.empty 3 false 5 (-5) (by decide) (by decide)

/-! ## Termination and nesting of the recursion -/

theorem emptyCells_play (b : Board) (flag : Bool) (m : Nat) :
    emptyCells (play b flag m) = (emptyCells b).filter (fun c => decide (c ≠ m)) := by
  unfold emptyCells
  rw [List.filter_filter]
  apply List.filter_congr
  intro c hc
  have hc64 : c < 64 := List.mem_range.1 hc
  have hbit : (moveBit m).1.testBit c = decide (m = c) := by
    rw [testBit_moveBit]; simp [hc64]
  have hocc : ((play b flag m).x_mask ||| (play b flag m).o_mask).testBit c =
      ((b.x_mask ||| b.o_mask).testBit c || decide (m = c)) := by
    cases flag
    · show (b.x_mask ||| (b.o_mask ||| (moveBit m).1)).testBit c = _
      rw [Nat.testBit_or, Nat.testBit_or, Nat.testBit_or, hbit, Bool.or_assoc]
    · show ((b.x_mask ||| (moveBit m).1) ||| b.o_mask).testBit c = _
      rw [Nat.testBit_or, Nat.testBit_or, Nat.testBit_or, hbit, Bool.or_assoc,
        Bool.or_comm (decide (m = c)), ← Bool.or_assoc]
  rw [hocc]
  by_cases hmc : m = c
  · subst hmc; simp
  · have : ¬ c = m := fun h => hmc h.symm
    simp [hmc, this]

theorem emptyCells_play_length {b : Board} (flag : Bool) {m : Nat} (hm : m ∈ emptyCells b) :
    (emptyCells (play b flag m)).length < (emptyCells b).length := by
  rw [emptyCells_play, List.length_filter_lt_length_iff_exists]
  exact ⟨m, hm, by simp⟩

theorem emptyCells_length_le (b : Board) : (emptyCells b).length ≤ 64 := by
  have := List.length_filter_le (fun c => !(b.x_mask ||| b.o_mask).testBit c) (List.range 64)
  rw [List.length_range] at this
  exact this

theorem searchMoves_total (search : Board → Bool → Int → Int → Option Int) (board : Board)
    (flag : Bool) :
    ∀ (rest : List Nat),
      (∀ m ∈ rest, ∀ a b, ∃ s, search (play board flag m) (!flag) a b = some s) →
      ∀ (a b bs bm : Int), ∃ r, searchMoves search board flag rest a b bs bm = some r
  | [], _, _, _, bs, bm => ⟨(bs, bm), rfl⟩
  | m :: tl, hc, a, b, bs, bm => by
    obtain ⟨s, hs⟩ := hc m (List.mem_cons_self _ _) a b
    have ih := searchMoves_total search board flag tl
      (fun m hm => hc m (List.mem_cons_of_mem _ hm))
    unfold searchMoves
    cases flag with
    | true =>
      rw [play_true, Bool.not_true] at hs
      simp only [if_true, hs]
      split_ifs <;> first | exact ⟨_, rfl⟩ | exact ih _ _ _ _
    | false =>
      rw [play_false, Bool.not_false] at hs
      simp only [Bool.false_eq_true, if_false, hs]
      split_ifs <;> first | exact ⟨_, rfl⟩ | exact ih _ _ _ _

theorem minimaxFuel_total : ∀ (fuel : Nat) (b : Board) (depth : Int) (flag : Bool)
    (alpha beta : Int),
    ((emptyCells b).length ≤ fuel ∨ (0 ≤ depth ∧ depth ≤ (fuel : Int))) →
    ∃ r, minimaxFuel fuel b depth flag alpha beta = some r
  | fuel, b, depth, flag, alpha, beta, hfuel => by
    rw [minimaxFuel_eq_body]
    rcases winCheck_cases WIN_MASKS b depth with hw | hw | hw
    · by_cases hf : popcountll (b.x_mask ||| b.o_mask) = 64
      · exact ⟨_, minimaxBody_full _ _ _ _ _ _ hw hf⟩
      · by_cases hd : depth = 0
        · subst hd
          exact ⟨_, minimaxBody_cutoff _ _ _ _ _ hw hf⟩
        · have hne := emptyCells_ne_nil hf
          have hpos : 0 < (emptyCells b).length := List.length_pos.2 hne
          cases fuel with
          | zero => omega
          | succ f =>
            rw [minimaxBody_search _ _ _ _ _ _ hw hf hd]
            apply searchMoves_total
            intro m hm a c
            have hlt := emptyCells_play_length flag hm
            obtain ⟨r, hr⟩ := minimaxFuel_total f (play b flag m) (depth - 1) (!flag) a c
              (by
                rcases hfuel with h | h
                · exact Or.inl (by omega)
                · exact Or.inr (by push_cast at h; omega))
            exact ⟨r.1, by simp only [hr, Option.map_some']⟩
    · exact ⟨_, minimaxBody_win _ _ _ _ _ _ _ hw⟩
    · exact ⟨_, minimaxBody_win _ _ _ _ _ _ _ hw⟩

theorem searchMoves_mono (s1 s2 : Board → Bool → Int → Int → Option Int) (board : Board)
    (flag : Bool) (h : ∀ nb f a c r, s1 nb f a c = some r → s2 nb f a c = some r) :
    ∀ (rest : List Nat) (a b bs bm : Int) (r : Int × Int),
      searchMoves s1 board flag rest a b bs bm = some r →
      searchMoves s2 board flag rest a b bs bm = some r
  | [], _, _, _, _, _, hr => hr
  | m :: tl, a, b, bs, bm, r, hr => by
    have ih := searchMoves_mono s1 s2 board flag h tl
    unfold searchMoves at hr ⊢
    cases flag with
    | true =>
      simp only [if_true] at hr ⊢
      cases hs : s1 (board.orX (moveBit m).1 (moveBit m).2) false a b with
      | none => rw [hs] at hr; exact absurd hr (by simp)
      | some s =>
        rw [hs] at hr
        rw [h _ _ _ _ _ hs]
        simp only at hr ⊢
        split_ifs at hr ⊢ <;> first | exact hr | exact ih _ _ _ _ _ hr
    | false =>
      simp only [Bool.false_eq_true, if_false] at hr ⊢
      cases hs : s1 (board.orO (moveBit m).1 (moveBit m).2) true a b with
      | none => rw [hs] at hr; exact absurd hr (by simp)
      | some s =>
        rw [hs] at hr
        rw [h _ _ _ _ _ hs]
        simp only at hr ⊢
        split_ifs at hr ⊢ <;> first | exact hr | exact ih _ _ _ _ _ hr

theorem minimaxBody_mono (self1 self2 : Board → Int → Bool → Int → Int → Option (Int × Int))
    (h : ∀ b d f a c r, self1 b d f a c = some r → self2 b d f a c = some r)
    (b : Board) (depth : Int) (flag : Bool) (alpha beta : Int) (r : Int × Int)
    (hr : minimaxBody self1 b depth flag alpha beta = some r) :
    minimaxBody self2 b depth flag alpha beta = some r := by
  rcases winCheck_cases WIN_MASKS b depth with hw | hw | hw
  · by_cases hf : popcountll (b.x_mask ||| b.o_mask) = 64
    · rw [minimaxBody_full _ _ _ _ _ _ hw hf] at hr ⊢; exact hr
    · by_cases hd : depth = 0
      · subst hd
        rw [minimaxBody_cutoff _ _ _ _ _ hw hf] at hr ⊢; exact hr
      · rw [minimaxBody_search _ _ _ _ _ _ hw hf hd] at hr ⊢
        refine searchMoves_mono _ _ b flag ?_ _ _ _ _ _ _ hr
        intro nb f a c s hs
        cases h1 : self1 nb (depth - 1) f a c with
        | none => rw [h1] at hs; exact absurd hs (by simp)
        | some v =>
          rw [h1] at hs
          rw [h _ _ _ _ _ _ h1]
          exact hs
  · rw [minimaxBody_win _ _ _ _ _ _ _ hw] at hr ⊢; exact hr
  · rw [minimaxBody_win _ _ _ _ _ _ _ hw] at hr ⊢; exact hr

theorem minimaxFuel_mono_succ : ∀ (fuel : Nat) (b : Board) (d : Int) (f : Bool) (a c : Int)
    (r : Int × Int), minimaxFuel fuel b d f a c = some r →
    minimaxFuel (fuel + 1) b d f a c = some r
  | 0, b, d, f, a, c, r, hr => by
    exact minimaxBody_mono _ _ (fun _ _ _ _ _ _ h => absurd h (by simp)) b d f a c r hr
  | fuel + 1, b, d, f, a, c, r, hr => by
    exact minimaxBody_mono _ _ (minimaxFuel_mono_succ fuel) b d f a c r hr

theorem minimaxFuel_mono {f1 f2 : Nat} (hle : f1 ≤ f2) (b : Board) (d : Int) (f : Bool)
    (a c : Int) (r : Int × Int) (hr : minimaxFuel f1 b d f a c = some r) :
    minimaxFuel f2 b d f a c = some r := by
  induction hle with
  | refl => exact hr
  | step _ ih => exact minimaxFuel_mono_succ _ b d f a c r ih

/-- C18 (termination and recursion depth): for every board, every integer depth, every
flag and every alpha and beta, `minimax` returns; each recursive call is made on a board
with strictly fewer empty cells; the computation completes, with the same result, when at
most `fuel` nested recursive calls are allowed, for every `fuel` that is at least the
number of empty cells of the board, and for `depth ≥ 0` for every `fuel` that is at least
`depth`; the number of empty cells is at most 64. -/
theorem minimax_terminates (board : Board) (depth : Int) (isMaximizing : Bool)
    (alpha beta : Int) :
    (∃ result, minimax board depth isMaximizing alpha beta = some result) ∧
    (∀ c ∈ emptyCells board,
      (emptyCells (play board isMaximizing c)).length < (emptyCells board).length) ∧
    (∀ fuel : Nat, (emptyCells board).length ≤ fuel →
      minimaxFuel fuel board depth isMaximizing alpha beta =
        minimax board depth isMaximizing alpha beta) ∧
    (∀ fuel : Nat, 0 ≤ depth → depth ≤ (fuel : Int) →
      minimaxFuel fuel board depth isMaximizing alpha beta =
        minimax board depth isMaximizing alpha beta) ∧
    (emptyCells board).length ≤ 64 := by
  have hlen := emptyCells_length_le board
  obtain ⟨r, hr⟩ := minimaxFuel_total 64 board depth isMaximizing alpha beta (Or.inl hlen)
  have key : ∀ fuel : Nat,
      ((emptyCells board).length ≤ fuel ∨ (0 ≤ depth ∧ depth ≤ (fuel : Int))) →
      minimaxFuel fuel board depth isMaximizing alpha beta =
        minimax board depth isMaximizing alpha beta := by
    intro fuel hfuel
    obtain ⟨r2, hr2⟩ := minimaxFuel_total fuel board depth isMaximizing alpha beta hfuel
    unfold minimax
    rcases Nat.le_total fuel 64 with hle | hle
    · rw [hr2, minimaxFuel_mono hle _ _ _ _ _ _ hr2]
    · rw [hr, minimaxFuel_mono hle _ _ _ _ _ _ hr]
  exact ⟨⟨r, hr⟩, fun c hc => emptyCells_play_length isMaximizing hc,
    fun fuel h => key fuel (Or.inl h), fun fuel h0 h => key fuel (Or.inr ⟨h0, h⟩), hlen⟩

/-! ## Exchanging the two players -/

theorem winCheck_swap {b : Board} {d : Int} : ∀ (l : List Nat),
    ¬ ((∃ mask ∈ l, b.x_mask &&& mask = mask) ∧ (∃ mask ∈ l, b.o_mask &&& mask = mask)) →
    winCheck l b.swap d = (winCheck l b d).map negScore
  | [], _ => rfl
  | a :: l, h => by
    unfold winCheck
    show (if b.o_mask &&& a = a then some (100000 + d, -1)
      else if b.x_mask &&& a = a then some (-100000 - d, -1)
      else winCheck l b.swap d) = _
    by_cases hx : b.x_mask &&& a = a
    · have ho : ¬ b.o_mask &&& a = a := fun ho =>
        h ⟨⟨a, List.mem_cons_self _ _, hx⟩, ⟨a, List.mem_cons_self _ _, ho⟩⟩
      simp only [hx, ho, if_true, if_false, Option.map_some', negScore]
      congr 2
      omega
    · by_cases ho : b.o_mask &&& a = a
      · simp only [hx, ho, if_true, if_false, Option.map_some', negScore]
        congr 2
        omega
      · simp only [hx, ho, if_false]
        apply winCheck_swap l
        rintro ⟨⟨m1, hm1, h1⟩, ⟨m2, hm2, h2⟩⟩
        exact h ⟨⟨m1, List.mem_cons_of_mem _ hm1, h1⟩, ⟨m2, List.mem_cons_of_mem _ hm2, h2⟩⟩

theorem emptyCells_swap (b : Board) : emptyCells b.swap = emptyCells b := by
  unfold emptyCells Board.swap
  simp only [Nat.lor_comm]

theorem evaluateBoard_swap (b : Board) : evaluateBoard b.swap = -evaluateBoard b := by
  unfold evaluateBoard
  have := evalFold_swap b WIN_MASKS 0
  rw [neg_zero] at this
  exact this

theorem searchMoves_swap (s1 s2 : Board → Bool → Int → Int → Option Int) (board : Board)
    (flag : Bool) :
    ∀ (rest : List Nat),
      (∀ m ∈ rest, ∀ a c, s2 (play board flag m).swap flag (-c) (-a) =
        (s1 (play board flag m) (!flag) a c).map (fun s => -s)) →
      ∀ (a c bs bm : Int),
        searchMoves s2 board.swap (!flag) rest (-c) (-a) (-bs) bm =
          (searchMoves s1 board flag rest a c bs bm).map negScore
  | [], _, _, _, _, _ => rfl
  | m :: tl, hc, a, c, bs, bm => by
    have hm := hc m (List.mem_cons_self _ _) a c
    have ih := searchMoves_swap s1 s2 board flag tl
      (fun m hm => hc m (List.mem_cons_of_mem _ hm))
    unfold searchMoves
    cases flag with
    | true =>
      rw [play_true, Bool.not_true] at hm
      simp only [Bool.not_true] at ih
      simp only [Bool.not_true, Bool.false_eq_true, if_false, if_true]
      have hb : board.swap.orO (moveBit m).1 (moveBit m).2 =
          (board.orX (moveBit m).1 (moveBit m).2).swap := rfl
      rw [hb, hm]
      cases s1 (board.orX (moveBit m).1 (moveBit m).2) false a c with
      | none => rfl
      | some s =>
        simp only [Option.map_some']
        by_cases hgt : s > bs
        · have hlt : -s < -bs := by omega
          simp only [hgt, hlt, if_true]
          by_cases hcut : c ≤ max a s
          · have hcut2 : min (-a) (-s) ≤ -c := by omega
            simp only [hcut, hcut2, if_true, Option.map_some', negScore]
          · have hcut2 : ¬ min (-a) (-s) ≤ -c := by omega
            simp only [hcut, hcut2, if_false]
            rw [← ih (max a s) c s m, min_neg_neg]
        · have hlt : ¬ -s < -bs := by omega
          simp only [hgt, hlt, if_false]
          by_cases hcut : c ≤ max a bs
          · have hcut2 : min (-a) (-bs) ≤ -c := by omega
            simp only [hcut, hcut2, if_true, Option.map_some', negScore]
          · have hcut2 : ¬ min (-a) (-bs) ≤ -c := by omega
            simp only [hcut, hcut2, if_false]
            rw [← ih (max a bs) c bs bm, min_neg_neg]
    | false =>
      rw [play_false, Bool.not_false] at hm
      simp only [Bool.not_false] at ih
      simp only [Bool.not_false, Bool.false_eq_true, if_false, if_true]
      have hb : board.swap.orX (moveBit m).1 (moveBit m).2 =
          (board.orO (moveBit m).1 (moveBit m).2).swap := rfl
      rw [hb, hm]
      cases s1 (board.orO (moveBit m).1 (moveBit m).2) true a c with
      | none => rfl
      | some s =>
        simp only [Option.map_some']
        by_cases hgt : s < bs
        · have hlt : -s > -bs := by omega
          simp only [hgt, hlt, if_true]
          by_cases hcut : min c s ≤ a
          · have hcut2 : -a ≤ max (-c) (-s) := by omega
            simp only [hcut, hcut2, if_true, Option.map_some', negScore]
          · have hcut2 : ¬ -a ≤ max (-c) (-s) := by omega
            simp only [hcut, hcut2, if_false]
            rw [← ih a (min c s) s m, max_neg_neg]
        · have hlt : ¬ -s > -bs := by omega
          simp only [hgt, hlt, if_false]
          by_cases hcut : min c bs ≤ a
          · have hcut2 : -a ≤ max (-c) (-bs) := by omega
            simp only [hcut, hcut2, if_true, Option.map_some', negScore]
          · have hcut2 : ¬ -a ≤ max (-c) (-bs) := by omega
            simp only [hcut, hcut2, if_false]
            rw [← ih a (min c bs) bs bm, max_neg_neg]

theorem minimaxBody_swap (self1 self2 : Board → Int → Bool → Int → Int → Option (Int × Int))
    (h : ∀ nb : Board, ¬ (hasLine nb.x_mask ∧ hasLine nb.o_mask) → ∀ d f a c,
      self2 nb.swap d (!f) (-c) (-a) = (self1 nb d f a c).map negScore)
    (b : Board) (hone : ¬ (hasLine b.x_mask ∧ hasLine b.o_mask))
    (depth : Int) (flag : Bool) (alpha beta : Int) :
    minimaxBody self2 b.swap depth (!flag) (-beta) (-alpha) =
      (minimaxBody self1 b depth flag alpha beta).map negScore := by
  have hws : winCheck WIN_MASKS b.swap depth = (winCheck WIN_MASKS b depth).map negScore :=
    winCheck_swap WIN_MASKS hone
  have hpop : popcountll (b.swap.x_mask ||| b.swap.o_mask) =
      popcountll (b.x_mask ||| b.o_mask) := by
    show popcountll (b.o_mask ||| b.x_mask) = _
    rw [Nat.lor_comm]
  rcases winCheck_cases WIN_MASKS b depth with hw | hw | hw
  · rw [hw] at hws
    by_cases hf : popcountll (b.x_mask ||| b.o_mask) = 64
    · rw [minimaxBody_full _ _ _ _ _ _ hws (by rw [hpop]; exact hf),
        minimaxBody_full _ _ _ _ _ _ hw hf]
      rfl
    · have hf2 : popcountll (b.swap.x_mask ||| b.swap.o_mask) ≠ 64 := by rw [hpop]; exact hf
      by_cases hd : depth = 0
      · subst hd
        rw [minimaxBody_cutoff _ _ _ _ _ hws hf2, minimaxBody_cutoff _ _ _ _ _ hw hf,
          evaluateBoard_swap]
        rfl
      · rw [minimaxBody_search _ _ _ _ _ _ hws hf2 hd, minimaxBody_search _ _ _ _ _ _ hw hf hd,
          emptyCells_swap]
        have hno := (winCheck_none_iff b depth).1 hw
        have hsent : (if (!flag) = true then (-1000000 : Int) else 1000000) =
            -(if flag = true then (-1000000 : Int) else 1000000) := by
          cases flag <;> rfl
        rw [hsent]
        apply searchMoves_swap
        intro m _ a c
        have hchild : ¬ (hasLine (play b flag m).x_mask ∧ hasLine (play b flag m).o_mask) := by
          cases flag
          · exact fun hh => hno.1 hh.1
          · exact fun hh => hno.2 hh.2
        have := h (play b flag m) hchild (depth - 1) (!flag) a c
        rw [Bool.not_not] at this
        rw [this, Option.map_map, Option.map_map]
        rfl
  · rw [hw] at hws
    rw [minimaxBody_win _ _ _ _ _ _ _ hws, minimaxBody_win _ _ _ _ _ _ _ hw]
    rfl
  · rw [hw] at hws
    rw [minimaxBody_win _ _ _ _ _ _ _ hws, minimaxBody_win _ _ _ _ _ _ _ hw]
    rfl

theorem minimaxFuel_swap : ∀ (fuel : Nat) (b : Board),
    ¬ (hasLine b.x_mask ∧ hasLine b.o_mask) → ∀ (d : Int) (f : Bool) (a c : Int),
    minimaxFuel fuel b.swap d (!f) (-c) (-a) = (minimaxFuel fuel b d f a c).map negScore
  | 0, b, hone, d, f, a, c =>
    minimaxBody_swap _ _ (fun _ _ _ _ _ _ => rfl) b hone d f a c
  | fuel + 1, b, hone, d, f, a, c =>
    minimaxBody_swap _ _ (minimaxFuel_swap fuel) b hone d f a c

/-- C20 (search colour symmetry): on a board on which at most one of the two players has a
complete win line, for `0 ≤ depth ≤ 64`, every flag `m` and alpha, beta in
`[-1000000, 1000000]`, if `minimax(board, depth, m, alpha, beta)` is `(s, mv)` then
`minimax` on the board with the masks exchanged, with the flag `!m` and the window
`(-beta, -alpha)`, is `(-s, mv)`. -/
theorem search_colour_symmetry (board : Board) (depth : Int) (m : Bool) (alpha beta : Int)
    (s mv : Int)
    (hone : ¬ (hasLine board.x_mask ∧ hasLine board.o_mask))
    (_h0 : 0 ≤ depth) (_h64 : depth ≤ 64)
    (_ha : -1000000 ≤ alpha ∧ alpha ≤ 1000000) (_hb : -1000000 ≤ beta ∧ beta ≤ 1000000)
    (h : minimax board depth m alpha beta = some (s, mv)) :
    minimax board.swap depth (!m) (-beta) (-alpha) = some (-s, mv) := by
  unfold minimax at h ⊢
  rw [minimaxFuel_swap 64 board hone depth m alpha beta, h]
  rfl

/-- Witness of C20: X holds the row of cells 0-3 and O three cells of the next row. -/
theorem search_colour_symmetry_witness :
    minimax (Board.swap ⟨0xF, 0x70, by decide, by decide⟩) 2 (!true) (-1000000) (-(-1000000)) =
      some (-(100000 + 2), -1) :=
  search_colour_symmetry ⟨0xF, 0x70, by decide, by decide⟩ 2 true (-1000000) 1000000
    (100000 + 2) (-1) (by decide) (by decide) (by decide) (by decide) (by decide)
    (by
      rw [minimax_eq_body]
      apply minimaxBody_win
      rw [WIN_MASKS_eq]
      decide)

/-! ## `minimax` in `int` arithmetic -/

theorem wrapInt32_of_range {v : Int} (h1 : -2147483648 ≤ v) (h2 : v ≤ 2147483647) :
    wrapInt32 v = v := by
  unfold wrapInt32
  omega

theorem wrapInt32_eq_zero {v : Int} (h1 : -4294967296 < v) (h2 : v < 4294967296)
    (h : wrapInt32 v = 0) : v = 0 := by
  unfold wrapInt32 at h
  omega

theorem winCheck32_eq_map (b : Board) (d : Int) : ∀ (l : List Nat),
    winCheck32 l b d = (winCheck l b d).map (fun r => (wrapInt32 r.1, r.2))
  | [] => rfl
  | a :: l => by
    unfold winCheck32 winCheck
    by_cases hx : b.x_mask &&& a = a
    · simp [hx]
    · by_cases ho : b.o_mask &&& a = a
      · simp [hx, ho]
      · simp only [hx, ho, if_false]
        exact winCheck32_eq_map b d l

theorem winCheck32_eq_winCheck (b : Board) (d : Int) (l : List Nat)
    (h1 : -2147483648 ≤ d) (h2 : d ≤ 2147383647) : winCheck32 l b d = winCheck l b d := by
  rw [winCheck32_eq_map]
  rcases winCheck_cases l b d with hw | hw | hw <;> rw [hw]
  · rfl
  · simp only [Option.map_some']
    rw [wrapInt32_of_range (by omega) (by omega)]
  · simp only [Option.map_some']
    rw [wrapInt32_of_range (by omega) (by omega)]

theorem minimaxBody32_win (self : Board → Int → Bool → Int → Int → Option (Int × Int))
    (b : Board) (depth : Int) (flag : Bool) (alpha beta : Int)
    (r : Int × Int) (hw : winCheck32 WIN_MASKS b depth = some r) :
    minimaxBody32 self b depth flag alpha beta = some r := by
  unfold minimaxBody32
  simp only [hw]

theorem minimaxBody32_full (self : Board → Int → Bool → Int → Int → Option (Int × Int))
    (b : Board) (depth : Int) (flag : Bool) (alpha beta : Int)
    (hw : winCheck32 WIN_MASKS b depth = none)
    (hf : popcountll (b.x_mask ||| b.o_mask) = 64) :
    minimaxBody32 self b depth flag alpha beta = some (0, -1) := by
  unfold minimaxBody32
  simp only [hw, hf, if_true]

theorem minimax32_eq_body (b : Board) (d : Int) (f : Bool) (a c : Int) :
    minimax32 b d f a c = minimaxBody32 (minimaxFuel32 63) b d f a c := rfl

theorem minimaxBody32_eq (self32 self : Board → Int → Bool → Int → Int → Option (Int × Int))
    (b : Board) (depth : Int) (flag : Bool) (alpha beta : Int)
    (h1 : -2147483647 ≤ depth) (h2 : depth ≤ 2147383647)
    (hself : ∀ nb f a c, self32 nb (depth - 1) f a c = self nb (depth - 1) f a c) :
    minimaxBody32 self32 b depth flag alpha beta = minimaxBody self b depth flag alpha beta := by
  unfold minimaxBody32 minimaxBody
  rw [winCheck32_eq_winCheck b depth WIN_MASKS (by omega) h2,
    wrapInt32_of_range (show -2147483648 ≤ depth - 1 by omega) (by omega)]
  have hfun : (fun nb f a c => (self32 nb (depth - 1) f a c).map Prod.fst) =
      (fun nb f a c => (self nb (depth - 1) f a c).map Prod.fst) := by
    funext nb f a c
    rw [hself]
  rw [hfun]

/-- Where no computation on `depth` overflows, `int` arithmetic and exact arithmetic give
the same search: `fuel` nested calls decrement `depth` at most `fuel` times. -/
theorem minimaxFuel32_eq : ∀ (fuel : Nat) (b : Board) (depth : Int) (flag : Bool)
    (alpha beta : Int), -2147483647 + (fuel : Int) ≤ depth → depth ≤ 2147383647 →
    minimaxFuel32 fuel b depth flag alpha beta = minimaxFuel fuel b depth flag alpha beta
  | 0, b, depth, flag, alpha, beta, h1, h2 =>
    minimaxBody32_eq _ _ b depth flag alpha beta (by omega) h2 (fun _ _ _ _ => rfl)
  | fuel + 1, b, depth, flag, alpha, beta, h1, h2 =>
    minimaxBody32_eq _ _ b depth flag alpha beta (by push_cast at h1; omega) h2
      (fun nb f a c => minimaxFuel32_eq fuel nb (depth - 1) f a c
        (by push_cast at h1; omega) (by omega))

theorem minimax32_eq_minimax (b : Board) (depth : Int) (flag : Bool) (alpha beta : Int)
    (h1 : -2147483583 ≤ depth) (h2 : depth ≤ 2147383647) :
    minimax32 b depth flag alpha beta = minimax b depth flag alpha beta :=
  minimaxFuel32_eq 64 b depth flag alpha beta (by push_cast; omega) h2


theorem winCheck32_none_iff (b : Board) (d : Int) :
    winCheck32 WIN_MASKS b d = none ↔ ¬ hasLine b.x_mask ∧ ¬ hasLine b.o_mask := by
  rw [winCheck32_eq_map, Option.map_eq_none', winCheck_none_iff]

theorem winCheck32_cases (l : List Nat) (b : Board) (d : Int) :
    winCheck32 l b d = none ∨ winCheck32 l b d = some (wrapInt32 (100000 + d), -1) ∨
      winCheck32 l b d = some (wrapInt32 (-100000 - d), -1) := by
  rw [winCheck32_eq_map]
  rcases winCheck_cases l b d with hw | hw | hw <;> rw [hw]
  · exact Or.inl rfl
  · exact Or.inr (Or.inl rfl)
  · exact Or.inr (Or.inr rfl)

/-- C6, counterexample: on a full board on which X holds a row, the win check does fire
first, but at depth `-100000` its result `100000 + depth` is `(0, -1)`, the very result of a
draw; and at depth `2147483647` the `int` sum `100000 + depth` overflows, so that the
returned score `-2147383649` is neither `100000 + depth` nor `-100000 - depth`. -/
theorem full_board_precedence_counterexample :
    popcountll (fullWonBoard.x_mask ||| fullWonBoard.o_mask) = 64 ∧
    hasLine fullWonBoard.x_mask ∧
    minimax32 fullWonBoard (-100000) true (-1000000) 1000000 = some (0, -1) ∧
    minimax fullWonBoard (-100000) true (-1000000) 1000000 = some (0, -1) ∧
    minimax32 fullWonBoard 2147483647 true (-1000000) 1000000 = some (-2147383649, -1) ∧
    (-2147383649 : Int) ≠ 100000 + 2147483647 ∧
    (-2147383649 : Int) ≠ -100000 - 2147483647 := by
  refine ⟨by decide, ⟨0xF, by rw [WIN_MASKS_eq]; decide, by decide⟩, ?_, ?_, ?_,
    by decide, by decide⟩
  · rw [minimax32_eq_body]
    apply minimaxBody32_win
    rw [WIN_MASKS_eq]
    decide
  · rw [minimax_eq_body]
    apply minimaxBody_win
    rw [WIN_MASKS_eq]
    decide
  · rw [minimax32_eq_body]
    apply minimaxBody32_win
    rw [WIN_MASKS_eq]
    decide

/-- C6 as amended (full-board precedence): on a board with all 64 cells occupied, for
every `int` depth other than `-100000` and every flag, alpha and beta, `minimax` returns
`(0, -1)` if no win line is complete in `x_mask` or `o_mask`; otherwise it returns a win
result, `(100000 + depth, -1)` or `(-100000 - depth, -1)` with the sum computed in `int`
(the exact sum for `depth ≤ 2147383647`), and this result is not the draw result `(0, -1)`:
the win check comes before the full-board check. -/
theorem full_board_precedence (board : Board) (depth : Int) (isMaximizing : Bool)
    (alpha beta : Int) (hfull : popcountll (board.x_mask ||| board.o_mask) = 64)
    (hmin : -2147483648 ≤ depth) (hmax : depth ≤ 2147483647) (hne : depth ≠ -100000) :
    (¬ hasLine board.x_mask ∧ ¬ hasLine board.o_mask →
      minimax32 board depth isMaximizing alpha beta = some (0, -1)) ∧
    (hasLine board.x_mask ∨ hasLine board.o_mask →
      (minimax32 board depth isMaximizing alpha beta =
          some (wrapInt32 (100000 + depth), -1) ∨
        minimax32 board depth isMaximizing alpha beta =
          some (wrapInt32 (-100000 - depth), -1)) ∧
      minimax32 board depth isMaximizing alpha beta ≠ some (0, -1) ∧
      (depth ≤ 2147383647 →
        wrapInt32 (100000 + depth) = 100000 + depth ∧
        wrapInt32 (-100000 - depth) = -100000 - depth)) := by
  rw [minimax32_eq_body]
  constructor
  · intro hno
    exact minimaxBody32_full _ _ _ _ _ _ ((winCheck32_none_iff _ _).2 hno) hfull
  · intro hline
    have hx0 : wrapInt32 (100000 + depth) ≠ 0 := fun h =>
      hne (by have := wrapInt32_eq_zero (by omega) (by omega) h; omega)
    have ho0 : wrapInt32 (-100000 - depth) ≠ 0 := fun h =>
      hne (by have := wrapInt32_eq_zero (by omega) (by omega) h; omega)
    refine ⟨?_, ?_, fun h => ⟨wrapInt32_of_range (by omega) (by omega),
      wrapInt32_of_range (by omega) (by omega)⟩⟩
    · rcases winCheck32_cases WIN_MASKS board depth with hw | hw | hw
      · have := (winCheck32_none_iff _ _).1 hw
        rcases hline with h | h
        · exact absurd h this.1
        · exact absurd h this.2
      · exact Or.inl (minimaxBody32_win _ _ _ _ _ _ _ hw)
      · exact Or.inr (minimaxBody32_win _ _ _ _ _ _ _ hw)
    · rcases winCheck32_cases WIN_MASKS board depth with hw | hw | hw
      · have := (winCheck32_none_iff _ _).1 hw
        rcases hline with h | h
        · exact absurd h this.1
        · exact absurd h this.2
      · rw [minimaxBody32_win _ _ _ _ _ _ _ hw]
        intro h
        simp only [Option.some.injEq, Prod.mk.injEq] at h
        exact hx0 h.1
      · rw [minimaxBody32_win _ _ _ _ _ _ _ hw]
        intro h
        simp only [Option.some.injEq, Prod.mk.injEq] at h
        exact ho0 h.1

/-- Witness of C6 as amended: a drawn full board scores 0; a full board with a row of X
is a win, at depth 5 and at the negative depth -7. -/
theorem full_board_precedence_witness :
    minimax32 drawnBoard 5 true (-1000000) 1000000 = some (0, -1) ∧
    minimax32 fullWonBoard 5 true (-1000000) 1000000 ≠ some (0, -1) ∧
    minimax32 fullWonBoard (-7) false 0 0 ≠ some (0, -1) :=
  ⟨(full_board_precedence drawnBoard 5 true (-1000000) 1000000 (by decide) (by decide)
      (by decide) (by decide)).1 ⟨by decide, by decide⟩,
    ((full_board_precedence fullWonBoard 5 true (-1000000) 1000000 (by decide) (by decide)
      (by decide) (by decide)).2 (Or.inl (by decide))).2.1,
    ((full_board_precedence fullWonBoard (-7) false 0 0 (by decide) (by decide)
      (by decide) (by decide)).2 (Or.inl (by decide))).2.1⟩

end TicTacToe
